import Mathlib

/-!
Verification development for the cclint reference-resolution and
scope-partitioning core (`internal/analyzer/scope.go` and its tree builder).

The Go source is shallowly embedded: the filesystem is modelled as a finite
association list from absolute paths to file contents, Go maps are modelled as
insertion-ordered association lists, and the external regex engine behind
`pattern.CompiledRegex()` is modelled as an opaque per-line matching function
carried inside the agent profile (the repository treats compiled regexes as an
external collaborator supplied by the profile loader).

Go `strings` / `path/filepath` library calls are modelled by executable
functions over the underlying character lists (Go strings are byte slices; the
paths and contents of interest are ASCII, where the two views agree).
-/

namespace Cclint

/-! ## String helpers (models of Go's `strings` package) -/

/-- Is `pat` a prefix of `text`? (model of `strings.HasPrefix`). -/
def hasPre : List Char → List Char → Bool
  | [], _ => true
  | _ :: _, [] => false
  | p :: ps, t :: ts => p = t && hasPre ps ts

/-- Does `text` contain `pat` as a contiguous substring? -/
def findSub (pat : List Char) : List Char → Bool
  | [] => pat.isEmpty
  | c :: ts => hasPre pat (c :: ts) || findSub pat ts

/-- Model of Go `strings.Contains s sub`. -/
def strContains (s sub : String) : Bool :=
  findSub sub.data s.data

def strStarts (s pre : String) : Bool := hasPre pre.data s.data

def strEnds (s suf : String) : Bool := hasPre suf.data.reverse s.data.reverse

def strLen (s : String) : Nat := s.data.length

def strDrop (s : String) (n : Nat) : String := ⟨s.data.drop n⟩

def strDropRight (s : String) (n : Nat) : String := ⟨s.data.take (s.data.length - n)⟩

/-- Split a character list at every occurrence of `sep` (model of
`strings.Split` with a one-character separator). -/
def splitCh (sep : Char) : List Char → List (List Char)
  | [] => [[]]
  | c :: rest =>
    let r := splitCh sep rest
    if c = sep then [] :: r
    else
      match r with
      | [] => [[c]]
      | h :: t => (c :: h) :: t

def strSplit (sep : Char) (s : String) : List String :=
  (splitCh sep s.data).map (fun l => ⟨l⟩)

/-- Join with a separator (model of `strings.Join`). -/
def joinSep (sep : List Char) : List (List Char) → List Char
  | [] => []
  | [x] => x
  | x :: y :: rest => x ++ sep ++ joinSep sep (y :: rest)

def strJoin (sep : String) (xs : List String) : String :=
  ⟨joinSep sep.data (xs.map (fun s => s.data))⟩

/-- ASCII uppercase of one character. -/
def upC (c : Char) : Char :=
  if 97 ≤ c.toNat ∧ c.toNat ≤ 122 then Char.ofNat (c.toNat - 32) else c

/-- ASCII lowercase of one character. -/
def downC (c : Char) : Char :=
  if 65 ≤ c.toNat ∧ c.toNat ≤ 90 then Char.ofNat (c.toNat + 32) else c

/-- Model of Go `strings.ToUpper` (ASCII). -/
def strUpper (s : String) : String := ⟨s.data.map upC⟩

/-- Model of Go `strings.ToLower` (ASCII). -/
def strLower (s : String) : String := ⟨s.data.map downC⟩

/-- Model of Go `strings.TrimPrefix(s, "@")`. -/
def trimAt (s : String) : String :=
  if strStarts s "@" then strDrop s 1 else s

/-- Model of Go `strings.TrimSuffix`. -/
def trimSuf (s suf : String) : String :=
  if strEnds s suf then strDropRight s (strLen suf) else s

/-! ## Path helpers (models of Go's `path/filepath` on Unix) -/

/-- One step of Go `filepath.Clean`'s segment normalization: `acc` is the
reversed stack of kept segments. -/
def cleanStep (rooted : Bool) (acc : List String) (seg : String) : List String :=
  if seg = "" || seg = "." then acc
  else if seg = ".." then
    match acc with
    | [] => if rooted then [] else [".."]
    | top :: rest => if top = ".." then ".." :: top :: rest else rest
  else seg :: acc

/-- Model of Go `filepath.Clean` for slash-separated paths. -/
def pathClean (p : String) : String :=
  if p = "" then "." else
  let rooted := strStarts p "/"
  let segs := (strSplit '/' p).foldl (cleanStep rooted) []
  let body := strJoin "/" segs.reverse
  if rooted then "/" ++ body
  else if body = "" then "." else body

/-- Model of Go `filepath.Join`: drop leading empty elements, join the rest
with `/`, then `Clean`. -/
def joinP (elems : List String) : String :=
  let rest := elems.dropWhile (fun e => e = "")
  if rest.isEmpty then "" else pathClean (strJoin "/" rest)

/-- Model of Go `filepath.Dir`. -/
def dirP (p : String) : String :=
  let parts := strSplit '/' p
  match parts with
  | [] => "."
  | [_] => "."
  | _ =>
    let pre := strJoin "/" parts.dropLast
    if pre = "" then (if strStarts p "/" then "/" else ".") else pathClean pre

/-- Model of Go `filepath.IsAbs` on Unix. -/
def isAbsP (p : String) : Bool := strStarts p "/"

/-! ## Filesystem model

The filesystem visible to one analysis run: a finite map from absolute file
paths to their contents, as an insertion-ordered association list.  `os.Stat`
succeeding is modelled as key membership, `os.ReadFile` as lookup. -/

/-- Association-list lookup keyed by strings (model of Go map indexing). -/
def lookupA {α : Type} : List (String × α) → String → Option α
  | [], _ => none
  | (k, v) :: rest, key => if key = k then some v else lookupA rest key

abbrev FS := List (String × String)

/-- Model of `os.Stat(p)` succeeding: the path is a file in the filesystem. -/
def stat (fs : FS) (p : String) : Bool := (lookupA fs p).isSome

/-! ## Reference data model (`internal/analyzer/tree.go` types) -/

/-- `RefType` from the source. -/
inductive RefType where
  | file | url | tool | subagent | skill | mcpServer | unknown
  deriving DecidableEq, Repr

/-- `ParseRefType` from the source. -/
def ParseRefType (s : String) : RefType :=
  if s = "file" then .file
  else if s = "url" then .url
  else if s = "tool" then .tool
  else if s = "subagent" then .subagent
  else if s = "skill" then .skill
  else if s = "mcp_server" then .mcpServer
  else .unknown

/-- `Location` from the source (1-based line and column). -/
structure Location where
  file : String
  line : Nat
  column : Nat
  deriving DecidableEq, Repr

/-- `Reference` from the source. -/
structure Reference where
  rtype : RefType
  value : String
  source : Location
  priority : Nat
  context : String
  resolved : Bool
  target : String
  deriving DecidableEq, Repr

/-- One entry of `agentConfig.ReferencePatterns`.  `compiled` models
`pattern.CompiledRegex()`: `none` is a malformed regex (skipped), otherwise a
per-line matcher returning, for each match with a capture group, the 0-based
start index of the capture and the captured text (Go's
`FindAllStringSubmatchIndex` restricted to `len(match) >= 4`). -/
structure RefPattern where
  ptype : String
  compiled : Option (String → List (Nat × String))

/-- `agentConfig.Markers`. -/
structure Markers where
  high : List String
  medium : List String
  low : List String

/-- The agent profile consumed by the core (`agent.Config`): entrypoint
patterns, reference patterns and priority markers. -/
structure AgentConfig where
  entrypoints : List String
  referencePatterns : List RefPattern
  markers : Markers

/-! ## Reference extraction (`extractReferences`, `calculatePriority`,
`getContext`) -/

/-- `calculatePriority` from the source: joins `lines[start:end]` with
`start = lineNum-5` clamped at 0 and `end = lineNum+5` clamped at
`len(lines)`, uppercases it, and adds 3/2/1 per configured high/medium/low
marker found as a substring. -/
def calculatePriority (lines : List String) (lineNum : Nat) (cfg : AgentConfig) : Nat :=
  let start := lineNum - 5
  let e := min (lineNum + 5) lines.length
  let context := strJoin " " ((lines.drop start).take (e - start))
  let contextUpper := strUpper context
  let p1 := cfg.markers.high.foldl
    (fun p m => if strContains contextUpper (strUpper m) then p + 3 else p) 0
  let p2 := cfg.markers.medium.foldl
    (fun p m => if strContains contextUpper (strUpper m) then p + 2 else p) p1
  cfg.markers.low.foldl
    (fun p m => if strContains contextUpper (strUpper m) then p + 1 else p) p2

/-- `getContext` from the source: `lines[start:end]` with `start = lineNum-radius`
clamped at 0 and `end = lineNum+radius+1` clamped at `len(lines)`, joined by
newlines. -/
def getContext (lines : List String) (lineNum radius : Nat) : String :=
  let start := lineNum - radius
  let e := min (lineNum + radius + 1) lines.length
  strJoin "\n" ((lines.drop start).take (e - start))

/-- `extractReferences` from the source: for every pattern whose regex
compiled, scan every line for all matches; each capture becomes a `Reference`
with 1-based line/column, computed priority and context, and zero-valued
`resolved`/`target`. -/
def extractReferences (content path : String) (cfg : AgentConfig) : List Reference :=
  let lines := strSplit '\n' content
  cfg.referencePatterns.foldl (fun refs pat =>
    match pat.compiled with
    | none => refs
    | some re =>
      let rt := ParseRefType pat.ptype
      lines.enum.foldl (fun refs lp =>
        (re lp.2).foldl (fun refs m =>
          refs ++ [{ rtype := rt
                     value := m.2
                     source := { file := path, line := lp.1 + 1, column := m.1 + 1 }
                     priority := calculatePriority lines lp.1 cfg
                     context := getContext lines lp.1 2
                     resolved := false
                     target := "" }]) refs) refs) []

/-! ## Path resolution (`resolveFilePath`) -/

/-- `resolveFilePath` from the source: strip a leading `@`; for a leading-`/`
reference try project-root-relative, then the reference itself as an absolute
path, defaulting to root-relative; otherwise try root-relative, then relative
to the source file's directory, defaulting to root-relative. -/
def resolveFilePath (fs : FS) (rootPath sourcePath refPath0 : String) : String :=
  let refPath := trimAt refPath0
  if strStarts refPath "/" then
    let rootRelative := joinP [rootPath, refPath]
    if stat fs rootRelative then pathClean rootRelative
    else if isAbsP refPath && stat fs refPath then refPath
    else pathClean rootRelative
  else
    let rootRelative := joinP [rootPath, refPath]
    if stat fs rootRelative then pathClean rootRelative
    else
      let sourceDir := dirP sourcePath
      let sourceRelative := pathClean (joinP [sourceDir, refPath])
      if stat fs sourceRelative then sourceRelative
      else rootRelative

/-! ## Tree building (`ConfigNode`, `Tree`, `processFile`, `BuildTree`)

`ConfigNode.children` and `ConfigNode.parent` are stored as node paths (keys
into `Tree.nodes`), following the spec's design note that back-references are
non-owning indices; the Go source stores pointers into the same node map. -/

/-- `ConfigNode` from the source (the `Parsed` field, owned by the external
parser, is not modelled; no claim mentions it). -/
structure ConfigNode where
  path : String
  content : String
  references : List Reference
  children : List String
  parent : Option String
  depth : Nat
  deriving DecidableEq, Repr

/-- `Tree` from the source.  `nodes` is the Go `map[string]*ConfigNode`,
modelled as an insertion-ordered association list. -/
structure Tree where
  root : ConfigNode
  rootPath : String
  nodes : List (String × ConfigNode)
  deriving DecidableEq, Repr

/-- Replace the value stored at key `k` (Go `*node` in-place mutation seen
through the map). -/
def updateA {α : Type} (m : List (String × α)) (k : String) (v : α) : List (String × α) :=
  m.map (fun e => if e.1 = k then (k, v) else e)

/-- The shared non-recursive prefix of `processFile`: cycle guard, read,
extract, register.  Returns `Sum.inl` when the source returns early, otherwise
the registered node and grown tree. -/
def registerNode (cfg : AgentConfig) (fs : FS) (t : Tree)
    (path : String) (parent : Option String) (depth : Nat) :
    (Tree × Option String) ⊕ (Tree × ConfigNode) :=
  match lookupA t.nodes path with
  | some _ => .inl (t, some path)
  | none =>
    match lookupA fs path with
    | none => .inl (t, none)
    | some content =>
      let refs := extractReferences content path cfg
      let node0 : ConfigNode :=
        { path := path, content := content, references := refs
          children := [], parent := parent, depth := depth }
      .inr ({ t with nodes := t.nodes ++ [(path, node0)] }, node0)

/-- One reference-walking step of `processFile`'s loop over a file's
references (the loop body under `depth < 5`):  Target is set for every file
reference, Resolved only when the target exists, and duplicate targets are
processed once as a child (seenChildren).  The state is (tree, rewritten
references, children, seenChildren); `rec` is the recursive `processFile`
call one fuel level down. -/
def walkStep (_cfg : AgentConfig) (fs : FS)
    (rec : Tree → String → Option String → Nat → Tree × Option String)
    (path : String) (depth : Nat)
    (st : Tree × List Reference × List String × List String) (ref : Reference) :
    Tree × List Reference × List String × List String :=
  if ref.rtype = RefType.file then
    let target := resolveFilePath fs st.1.rootPath path ref.value
    let ref1 := { ref with target := target }
    if stat fs target then
      let ref2 := { ref1 with resolved := true }
      if st.2.2.2.contains target then (st.1, st.2.1 ++ [ref2], st.2.2.1, st.2.2.2)
      else
        let pr := rec st.1 target (some path) (depth + 1)
        match pr.2 with
        | some cp => (pr.1, st.2.1 ++ [ref2], st.2.2.1 ++ [cp], st.2.2.2 ++ [target])
        | none => (pr.1, st.2.1 ++ [ref2], st.2.2.1, st.2.2.2 ++ [target])
    else (st.1, st.2.1 ++ [ref1], st.2.2.1, st.2.2.2)
  else (st.1, st.2.1 ++ [ref], st.2.2.1, st.2.2.2)

/-- `processFile` from the source.  `fuel` bounds the recursion for Lean only:
the source recurses only while `depth < 5`, so any `fuel ≥ 5 - depth` (callers
use 5) makes the fuel-exhausted case dead code.  Returns the grown tree and
the processed node's path (`none` models a read error). -/
def processFile (cfg : AgentConfig) (fs : FS) :
    Nat → Tree → String → Option String → Nat → Tree × Option String
  | 0, t, path, parent, depth =>
    match registerNode cfg fs t path parent depth with
    | .inl r => r
    | .inr (t1, _) => (t1, some path)
  | fuel + 1, t, path, parent, depth =>
    match registerNode cfg fs t path parent depth with
    | .inl r => r
    | .inr (t1, node0) =>
      if depth < 5 then
        let st := node0.references.foldl
          (walkStep cfg fs
            (fun t' p' par' d' => processFile cfg fs fuel t' p' par' d') path depth)
          (t1, [], [], [])
        let node1 := { node0 with references := st.2.1, children := st.2.2.1 }
        ({ st.1 with nodes := updateA st.1.nodes path node1 }, some path)
      else (t1, some path)

/-- Model of `filepath.Glob(filepath.Join(rootPath, pattern))` restricted to
wildcard-free patterns (the claims exercise only literal entrypoint names):
the joined path matches iff it exists. -/
def globEntry (fs : FS) (rootPath pattern : String) : List String :=
  let p := joinP [rootPath, pattern]
  if stat fs p then [p] else []

/-- The synthetic root node created by `BuildTree` (depth 0). -/
def rootNode (rootPath : String) : ConfigNode :=
  { path := rootPath, content := "", references := []
    children := [], parent := none, depth := 0 }

/-- The empty tree `BuildTree` starts from. -/
def initialTree (rootPath : String) : Tree :=
  { root := rootNode rootPath, rootPath := rootPath, nodes := [] }

/-- One entrypoint-processing step of `BuildTree`: process the file at depth 1
as a child of the synthetic root; a failing entrypoint is skipped. -/
def entryStep (cfg : AgentConfig) (fs : FS) (rootPath : String)
    (st : Tree × List String) (entry : String) : Tree × List String :=
  let pr := processFile cfg fs 5 st.1 entry (some rootPath) 1
  match pr.2 with
  | some np => (pr.1, st.2 ++ [np])
  | none => (pr.1, st.2)

/-- `BuildTree` from the source.  `rootPath` is taken to be already absolute
(`filepath.Abs` is the identity on absolute paths).  Fails with the
"no configuration files found" error when no entrypoint glob matches. -/
def BuildTree (cfg : AgentConfig) (fs : FS) (rootPath : String) : Except String Tree :=
  let entrypoints := cfg.entrypoints.foldl (fun acc pat => acc ++ globEntry fs rootPath pat) []
  if entrypoints.isEmpty then .error "no configuration files found"
  else
    let st := entrypoints.foldl (entryStep cfg fs rootPath) (initialTree rootPath, [])
    .ok { st.1 with root := { rootNode rootPath with children := st.2 } }

/-! ## Scope discovery (`ScopeType`, `ContextScope`, `DiscoverScopes`,
`collectReachableNodes`) -/

/-- `ScopeType` from the source.  The copy of `scope.go` under version control
declares `Main` and `Subagent`; the `Command` and `Skill` variants are
established by the package's tests and by the `graph` command, which consume
the newer scope discoverer (see `Scope2` below). -/
inductive ScopeType where
  | main | subagent | command | skill
  deriving DecidableEq, Repr

/-- `ContextScope` from the source. -/
structure ContextScope where
  stype : ScopeType
  name : String
  entrypoint : String
  nodes : List ConfigNode
  filePaths : List String
  deriving DecidableEq, Repr

/-- One step of the reachability walk of `collectReachableNodes`: depth-first,
marking `path` visited before the existence check, then following resolved
file references and child edges.  `fuel` only serves Lean's termination: the
walk visits each distinct path at most once, so `t.nodes.length + 2` levels
always suffice. -/
def visitRec (t : Tree) : Nat → List String × List ConfigNode → String →
    List String × List ConfigNode
  | 0, st, _ => st
  | fuel + 1, st0, path =>
    if st0.1.contains path then st0
    else
      let vis := path :: st0.1
      match lookupA t.nodes path with
      | none => (vis, st0.2)
      | some node =>
        let st1 := node.references.foldl (fun st ref =>
          if ref.rtype = RefType.file && ref.resolved then visitRec t fuel st ref.target
          else st) (vis, st0.2 ++ [node])
        node.children.foldl (fun st c => visitRec t fuel st c) st1

/-- `collectReachableNodes` from the source. -/
def collectReachableNodes (t : Tree) (entrypoint : String) : List ConfigNode :=
  (visitRec t (t.nodes.length + 2) ([], []) entrypoint).2

/-- First path segment of a relative path. -/
def firstSeg (s : String) : String :=
  match strSplit '/' s with
  | [] => ""
  | c :: _ => c

def dedupStr : List String → List String
  | [] => []
  | x :: xs => if (dedupStr xs).contains x then dedupStr xs else x :: dedupStr xs

/-- Lexicographic comparison on characters (byte order on ASCII). -/
def ltCh : List Char → List Char → Bool
  | [], [] => false
  | [], _ :: _ => true
  | _ :: _, [] => false
  | a :: as, b :: bs => if a = b then ltCh as bs else decide (a < b)

def insertSorted (x : String) : List String → List String
  | [] => [x]
  | y :: ys => if ltCh x.data y.data then x :: y :: ys else y :: insertSorted x ys

def sortStrs : List String → List String
  | [] => []
  | x :: xs => insertSorted x (sortStrs xs)

/-- Model of `os.ReadDir`: the immediate entries below directory `d`, each
with its directory flag, sorted by name as `os.ReadDir` guarantees. -/
def readDir (fs : FS) (d : String) : List (String × Bool) :=
  let pre := d ++ "/"
  let names := dedupStr (fs.filterMap (fun e =>
    if strStarts e.1 pre then some (firstSeg (strDrop e.1 (strLen pre))) else none))
  (sortStrs names).map (fun n => (n, fs.any (fun e => strStarts e.1 (pre ++ n ++ "/"))))

/-- Go `m[k] = v` on the modelled insertion-ordered map: overwrite in place or
append. -/
def insertOver (m : List (String × String)) (k v : String) : List (String × String) :=
  if (lookupA m k).isSome then updateA m k v else m ++ [(k, v)]

/-- Go `if _, exists := m[k]; !exists { m[k] = v }`. -/
def insertIfAbsent (m : List (String × String)) (k v : String) : List (String × String) :=
  if (lookupA m k).isSome then m else m ++ [(k, v)]

/-- The candidate config paths probed for a subagent named by a
`RefTypeSubagent` reference. -/
def subagentProbe (fs : FS) (root name : String) : Option String :=
  [joinP [root, ".claude", "agents", name ++ ".md"],
   joinP [root, ".claude", "agents", name, "CLAUDE.md"],
   joinP [root, ".claude", "agents", name, "instructions.md"]].find?
    (fun p => stat fs p)

/-- The merged subagent entrypoint map of `DiscoverScopes` (path → name):
strategy (a) scans every `RefTypeSubagent` reference in the tree, strategy (b)
enumerates `.claude/agents/`.  The association list models the map's
*contents* (keyed insertion-ordered, as built); the unspecified order in which
Go's `range` then iterates this map is a separate parameter — see
`DiscoverScopesWith`. -/
def subagentEntries (fs : FS) (t : Tree) (root : String) : List (String × String) :=
  -- 1. subagents from RefTypeSubagent references
  let m := t.nodes.foldl (fun m e =>
    e.2.references.foldl (fun m ref =>
      if ref.rtype = RefType.subagent then
        match subagentProbe fs root ref.value with
        | some p => insertOver m p ref.value
        | none => m
      else m) m) []
  -- 2. subagents from the well-known .claude/agents directory
  let agentsDir := joinP [root, ".claude", "agents"]
  (readDir fs agentsDir).foldl (fun m entry =>
    if entry.2 then
      let dirPath := joinP [agentsDir, entry.1]
      match ["CLAUDE.md", "instructions.md"].find? (fun f => stat fs (joinP [dirPath, f])) with
      | some f => insertIfAbsent m (joinP [dirPath, f]) entry.1
      | none => m
    else if strEnds entry.1 ".md" then
      insertIfAbsent m (joinP [agentsDir, entry.1]) (trimSuf entry.1 ".md")
    else m) m

/-- One step of the subagent-scope pass of `DiscoverScopes`: process the
discovered entrypoint on demand if missing from the tree, take its reachable
closure, and keep the scope only when that closure is non-empty. -/
def subStep (cfg : AgentConfig) (fs : FS) (st : Tree × List ContextScope)
    (ent : String × String) : Tree × List ContextScope :=
  let t := if (lookupA st.1.nodes ent.1).isSome then st.1
           else (processFile cfg fs 5 st.1 ent.1 none 1).1
  if (lookupA t.nodes ent.1).isSome then
    let nodes := collectReachableNodes t ent.1
    if 0 < nodes.length then
      (t, st.2 ++ [{ stype := .subagent, name := ent.2, entrypoint := ent.1
                     nodes := nodes, filePaths := nodes.map (fun n => n.path) }])
    else (t, st.2)
  else (t, st.2)

/-- The subagent-scope pass of `DiscoverScopes`. -/
def subagentPass (cfg : AgentConfig) (fs : FS) (t : Tree) (root : String) :
    Tree × List ContextScope :=
  (subagentEntries fs t root).foldl (subStep cfg fs) (t, [])

/-- The main scope of `DiscoverScopes`: the union of reachable closures from
every child of the synthetic root, deduplicated by path with insertion order
preserved. -/
def mainScopeOf (t : Tree) (root : String) : ContextScope :=
  let nodes := t.root.children.foldl (fun acc c =>
    (collectReachableNodes t c).foldl (fun acc n =>
      if acc.any (fun m => m.path = n.path) then acc else acc ++ [n]) acc) []
  { stype := .main, name := "main", entrypoint := root
    nodes := nodes, filePaths := nodes.map (fun n => n.path) }

/-- `DiscoverScopes` from the source, with Go's unspecified map-iteration
order made an explicit parameter: the source ranges over the
`subagentEntrypoints` map, so a run of the program corresponds to any `order`
that is a permutation of the discovered entrypoint map
(`subagentEntries fs t root`).  The main scope is prepended when it has any
nodes.  Returns the (possibly grown) tree alongside the scopes; the Go
receiver mutates the tree in place. -/
def DiscoverScopesWith (cfg : AgentConfig) (fs : FS) (t : Tree) (root : String)
    (order : List (String × String)) : Tree × List ContextScope :=
  let ts := order.foldl (subStep cfg fs) (t, [])
  let m := mainScopeOf ts.1 root
  (ts.1, if 0 < m.nodes.length then m :: ts.2 else ts.2)

/-- `DiscoverScopes` at one fixed (insertion-order) choice of the map's
iteration order.  Properties whose conclusions do not depend on the iteration
order (scope non-emptiness, the resolved-iff-exists invariant) are stated over
this instance; order-sensitive statements are made over `DiscoverScopesWith`
for every legal order. -/
def DiscoverScopes (cfg : AgentConfig) (fs : FS) (t : Tree) (root : String) :
    Tree × List ContextScope :=
  let ts := subagentPass cfg fs t root
  let m := mainScopeOf ts.1 root
  (ts.1, if 0 < m.nodes.length then m :: ts.2 else ts.2)

/-! ## Newer scope discoverer (spec-modelled)

The repository's current `DiscoverScopes` additionally discovers command and
skill scopes and nests them below the main scope; that function is not in the
checked-in `scope.go` (only its tests and the `graph` command caller are), so
the following definitions are modelled from the specification text. -/

/-- A context scope with nested child scopes, as consumed by the scope tests
and the `graph` command. -/
inductive Scope2 where
  | mk (stype : ScopeType) (name : String) (entrypoint : String)
       (nodes : List ConfigNode) (children : List Scope2)

def Scope2.stype : Scope2 → ScopeType
  | .mk k _ _ _ _ => k

def Scope2.name : Scope2 → String
  | .mk _ n _ _ _ => n

def Scope2.entrypoint : Scope2 → String
  | .mk _ _ e _ _ => e

def Scope2.nodes : Scope2 → List ConfigNode
  | .mk _ _ _ ns _ => ns

def Scope2.children : Scope2 → List Scope2
  | .mk _ _ _ _ cs => cs

/-- Modelled from the spec: command files are every `.md` file under
`.claude/commands/` (recursively). -/
def commandFiles (fs : FS) (root : String) : List String :=
  let base := joinP [root, ".claude", "commands"] ++ "/"
  fs.filterMap (fun e =>
    if strStarts e.1 base && strEnds e.1 ".md" then some e.1 else none)

/-- Modelled from the spec: a command's name is its path relative to the
commands directory, `/`-separated, with the `.md` extension stripped. -/
def commandName (root p : String) : String :=
  let base := joinP [root, ".claude", "commands"] ++ "/"
  trimSuf (strDrop p (strLen base)) ".md"

/-- Modelled from the spec: skill files are `.claude/skills/<name>.md` or
`.claude/skills/<name>/SKILL.md` (case-insensitive filename); returns
(name, path) pairs. -/
def skillFiles (fs : FS) (root : String) : List (String × String) :=
  let base := joinP [root, ".claude", "skills"] ++ "/"
  fs.filterMap (fun e =>
    if strStarts e.1 base then
      let rest := strDrop e.1 (strLen base)
      match strSplit '/' rest with
      | [f] => if strEnds f ".md" then some (trimSuf f ".md", e.1) else none
      | [name, f] => if strLower f = "skill.md" then some (name, e.1) else none
      | _ => none
    else none)

/-- Modelled from the spec: one step of leaf-scope (command/skill) discovery —
process the entrypoint on demand, then take its reachable closure. -/
def leafStep (cfg : AgentConfig) (fs : FS) (kind : ScopeType)
    (st : Tree × List Scope2) (ent : String × String) : Tree × List Scope2 :=
  let t := if (lookupA st.1.nodes ent.2).isSome then st.1
           else (processFile cfg fs 5 st.1 ent.2 none 1).1
  let nodes := if (lookupA t.nodes ent.2).isSome then collectReachableNodes t ent.2 else []
  (t, st.2 ++ [.mk kind ent.1 ent.2 nodes []])

/-- Modelled from the spec: discover one leaf scope per (name, entrypoint)
pair the way subagent scopes are discovered. -/
def leafPass (cfg : AgentConfig) (fs : FS) (kind : ScopeType)
    (inputs : List (String × String)) (t : Tree) : Tree × List Scope2 :=
  inputs.foldl (leafStep cfg fs kind) (t, [])

/-- Modelled from the spec: the newer `DiscoverScopes`.  Subagent scopes are
discovered as in the checked-in version; command and skill scopes are
discovered by directory walk with on-demand processing and attached as
children of the main scope; the main scope is returned first whenever it has
any nodes or children. -/
def discoverScopesFull (cfg : AgentConfig) (fs : FS) (t : Tree) (root : String) :
    Tree × List Scope2 :=
  let ts := subagentPass cfg fs t root
  let subs := ts.2.map (fun s => Scope2.mk s.stype s.name s.entrypoint s.nodes [])
  let tc := leafPass cfg fs .command
    ((commandFiles fs root).map (fun p => (commandName root p, p))) ts.1
  let tk := leafPass cfg fs .skill (skillFiles fs root) tc.1
  let m0 := mainScopeOf tk.1 root
  let mainScope := Scope2.mk .main "main" root m0.nodes (tc.2 ++ tk.2)
  (tk.1, if 0 < m0.nodes.length ∨ 0 < (tc.2 ++ tk.2).length then mainScope :: subs else subs)

/-! ## Specification predicates -/

/-- The spec's reference invariant: `resolved = true` iff `target` denotes a
file that exists in the (constant, single-snapshot) filesystem. -/
def RefOK (fs : FS) (r : Reference) : Prop :=
  r.resolved = true ↔ stat fs r.target = true

/-- The reference invariant over every node of a tree. -/
def TreeRefsOK (fs : FS) (t : Tree) : Prop :=
  ∀ e ∈ t.nodes, ∀ r ∈ e.2.references, RefOK fs r

/-! ## Concrete fixtures

Small concrete projects used to instantiate the theorems below.  `seeMatch`
is a concrete stand-in for a compiled `@path` reference regex: it matches
lines of the form `see @...`, capturing from column 5 (0-based index 4). -/

def seeMatch : String → List (Nat × String) :=
  fun line => if strStarts line "see @" then [(4, strDrop line 4)] else []

def exCfg : AgentConfig :=
  { entrypoints := ["CLAUDE.md"]
    referencePatterns := [{ ptype := "file", compiled := some seeMatch }]
    markers := { high := [], medium := [], low := [] } }

def exCfgTwo : AgentConfig := { exCfg with entrypoints := ["CLAUDE.md", "B.md"] }

def exCfgRev : AgentConfig := { exCfg with entrypoints := ["B.md", "CLAUDE.md"] }

def exMarkCfg : AgentConfig :=
  { entrypoints := [], referencePatterns := []
    markers := { high := ["IMPORTANT"], medium := [], low := [] } }

def exFsMain : FS := [("/p/CLAUDE.md", "hello\nsee @/B.md"), ("/p/B.md", "leaf")]

def exFsDup : FS := [("/p/CLAUDE.md", "see @/B.md\nsee @/B.md"), ("/p/B.md", "leaf")]

def exFsCycle : FS := [("/p/CLAUDE.md", "see @/B.md"), ("/p/B.md", "see @/CLAUDE.md")]

def exFsChain : FS :=
  [("/p/CLAUDE.md", "see @/f2.md"), ("/p/f2.md", "see @/f3.md"),
   ("/p/f3.md", "see @/f4.md"), ("/p/f4.md", "see @/f5.md"),
   ("/p/f5.md", "see @/f6.md"), ("/p/f6.md", "leaf")]

def exFsAgents : FS :=
  [("/p/CLAUDE.md", "hi"), ("/p/.claude/agents/reviewer.md", "rev"),
   ("/p/.claude/agents/coder/CLAUDE.md", "cod")]

def exFsCmd : FS :=
  [("/p/CLAUDE.md", "hi"), ("/p/.claude/commands/deploy.md", "d"),
   ("/p/.claude/commands/git/push.md", "g"), ("/p/.claude/skills/linear.md", "l"),
   ("/p/.claude/skills/ck-search/SKILL.md", "s")]

def emptyTree : Tree :=
  { root := { path := "/p", content := "", references := [], children := []
              parent := none, depth := 0 }
    rootPath := "/p", nodes := [] }

/-- The tree `BuildTree` produces on `exFsMain` (total fallback for the
`Except`). -/
def exTreeMain : Tree :=
  match BuildTree exCfg exFsMain "/p" with
  | .ok t => t
  | .error _ => emptyTree

def exTreeAgents : Tree :=
  match BuildTree exCfg exFsAgents "/p" with
  | .ok t => t
  | .error _ => emptyTree

def exTreeCmd : Tree :=
  match BuildTree exCfg exFsCmd "/p" with
  | .ok t => t
  | .error _ => emptyTree

def exTreeChain : Tree :=
  match BuildTree exCfg exFsChain "/p" with
  | .ok t => t
  | .error _ => emptyTree

/-- The first scope discovered on the `exFsMain` project. -/
def exScopeMain : ContextScope :=
  (DiscoverScopes exCfg exFsMain exTreeMain "/p").2.headD
    { stype := .main, name := "", entrypoint := "", nodes := [], filePaths := [] }

/-! ## Association-list lemmas -/

@[simp] theorem lookupA_nil {α : Type} (k : String) :
    lookupA ([] : List (String × α)) k = none := rfl

@[simp] theorem lookupA_cons {α : Type} (a : String) (v : α) (m : List (String × α)) (k : String) :
    lookupA ((a, v) :: m) k = if k = a then some v else lookupA m k := rfl

theorem lookupA_append_some {α : Type} {m1 : List (String × α)} {k : String} {v : α}
    (m2 : List (String × α)) (h : lookupA m1 k = some v) :
    lookupA (m1 ++ m2) k = some v := by
  induction m1 with
  | nil => simp at h
  | cons e rest ih =>
    obtain ⟨a, w⟩ := e
    by_cases hk : k = a
    · simp [hk] at h ⊢; exact h
    · simp [hk] at h ⊢; exact ih h

theorem lookupA_append_none {α : Type} {m1 : List (String × α)} {k : String}
    (m2 : List (String × α)) (h : lookupA m1 k = none) :
    lookupA (m1 ++ m2) k = lookupA m2 k := by
  induction m1 with
  | nil => simp
  | cons e rest ih =>
    obtain ⟨a, w⟩ := e
    by_cases hk : k = a
    · simp [hk] at h
    · simp [hk] at h ⊢; exact ih h

theorem updateA_of_lookupA_none {α : Type} {m : List (String × α)} {k : String}
    (v : α) (h : lookupA m k = none) : updateA m k v = m := by
  induction m with
  | nil => rfl
  | cons e rest ih =>
    obtain ⟨a, w⟩ := e
    by_cases hk : k = a
    · simp [hk] at h
    · simp [hk] at h
      have ha : ¬(a = k) := fun hc => hk hc.symm
      have h2 := ih h
      simp only [updateA, List.map_cons] at h2 ⊢
      simp [ha, h2]

theorem lookupA_updateA_ne {α : Type} (m : List (String × α)) (k : String) (v : α)
    {k' : String} (h : k' ≠ k) : lookupA (updateA m k v) k' = lookupA m k' := by
  induction m with
  | nil => rfl
  | cons e rest ih =>
    obtain ⟨a, w⟩ := e
    by_cases ha : a = k
    · subst ha
      simp [updateA, List.map] at ih ⊢
      simp [h, ih]
    · simp [updateA, List.map, ha] at ih ⊢
      by_cases hk : k' = a <;> simp [hk, ih]

theorem updateA_append {α : Type} (m1 m2 : List (String × α)) (k : String) (v : α) :
    updateA (m1 ++ m2) k v = updateA m1 k v ++ updateA m2 k v :=
  List.map_append _ _ _

theorem updateA_map_fst {α : Type} (m : List (String × α)) (k : String) (v : α) :
    (updateA m k v).map Prod.fst = m.map Prod.fst := by
  induction m with
  | nil => rfl
  | cons e rest ih =>
    obtain ⟨a, w⟩ := e
    by_cases ha : a = k
    · subst ha; simp [updateA, List.map] at ih ⊢; exact ih
    · simp [updateA, List.map, ha] at ih ⊢; exact ih

/-! ## Claim theorems -/

/-- C3: `calculatePriority`'s keyword window is not the claimed
`L-5 .. L+5`: the slice `lines[start:end]` uses the exclusive upper bound
`lineNum+5`, so it covers 5 lines before but only 4 lines after the match.
A high-priority keyword placed on 0-based line `lineNum+5` contributes
nothing (priority 0), while on line `lineNum+4` it contributes 3; under the
claim (and the source's own comment "5 before and 5 after") both would be 3. -/
theorem calculatePriority_window_bound :
    calculatePriority ["x", "", "", "", "", "IMPORTANT"] 0 exMarkCfg = 0 ∧
    calculatePriority ["x", "", "", "", "IMPORTANT", ""] 0 exMarkCfg = 3 :=
  ⟨rfl, rfl⟩

/-- C4 counterexample: on a two-entrypoint project where the first entrypoint
references the second, the returned root has path `"/p"` (the supplied root
path, not the empty path the claim states), and the second root child is a
node of depth 2, not 1 (it was first reached at depth 2 through the first
entrypoint's references, and the entrypoint pass then reuses that node). -/
theorem buildTree_root_counterexample :
    (BuildTree exCfgTwo exFsDup "/p").toOption.map (fun t =>
      (t.root.path, t.root.children.map (fun c => (lookupA t.nodes c).map ConfigNode.depth)))
      = some ("/p", [some 1, some 2]) ∧ "/p" ≠ "" :=
  ⟨rfl, by decide⟩

/-- C6 counterexample: when the common target of two same-file references is
already in the node map (here `/p/B.md`, processed first as an entrypoint at
depth 1), exactly one child is still appended and both reference occurrences
are kept and resolved, but the child node's depth is its existing depth 1,
not the parent's depth 1 plus 1. -/
theorem processFile_dedup_counterexample :
    (BuildTree exCfgRev exFsDup "/p").toOption.map (fun t =>
      ((lookupA t.nodes "/p/CLAUDE.md").map (fun nd =>
        (nd.depth, nd.children, nd.references.map (fun r => (r.value, r.resolved, r.target)))),
       (lookupA t.nodes "/p/B.md").map ConfigNode.depth))
      = some (some (1, ["/p/B.md"], [("@/B.md", true, "/p/B.md"), ("@/B.md", true, "/p/B.md")]),
              some 1)
    ∧ (1 : Nat) ≠ 1 + 1 :=
  ⟨rfl, by decide⟩

/-- C8 counterexample: for reference `/CABLE.md` from `/proj/sub/dir/x.md`
where neither the root-relative candidate `/proj/CABLE.md` nor the
source-directory-relative candidate `/proj/sub/dir/CABLE.md` exists but
`/CABLE.md` itself exists as an absolute path, the resolver returns
`/CABLE.md`, not the root-relative candidate the claim requires. -/
theorem resolveFilePath_counterexample :
    resolveFilePath [("/CABLE.md", "x")] "/proj" "/proj/sub/dir/x.md" "/CABLE.md" = "/CABLE.md"
    ∧ stat [("/CABLE.md", "x")] "/proj/CABLE.md" = false
    ∧ stat [("/CABLE.md", "x")] "/proj/sub/dir/CABLE.md" = false
    ∧ "/CABLE.md" ≠ "/proj/CABLE.md" :=
  ⟨rfl, rfl, rfl, by decide⟩

/-- C8 amended: path resolution prefers the project-root-relative candidate —
whenever `root/ref` (after stripping `@`) exists it is returned (cleaned);
and when neither the root-relative candidate nor the source-directory-relative
candidate exists, and the reference does not itself exist as an absolute path,
the resolver returns the root-relative candidate. -/
theorem resolveFilePath_amended (fs : FS) (root src ref : String) :
    (stat fs (joinP [root, trimAt ref]) = true →
      resolveFilePath fs root src ref = pathClean (joinP [root, trimAt ref])) ∧
    (stat fs (joinP [root, trimAt ref]) = false →
     stat fs (pathClean (joinP [dirP src, trimAt ref])) = false →
     (strStarts (trimAt ref) "/" = true → stat fs (trimAt ref) = false) →
      resolveFilePath fs root src ref =
        (if strStarts (trimAt ref) "/" then pathClean (joinP [root, trimAt ref])
         else joinP [root, trimAt ref])) := by
  constructor
  · intro h1
    unfold resolveFilePath
    by_cases hs : strStarts (trimAt ref) "/" = true <;> simp [hs, h1]
  · intro h1 h2 h3
    unfold resolveFilePath
    by_cases hs : strStarts (trimAt ref) "/" = true
    · simp [hs, h1, isAbsP, h3 hs]
    · simp [hs, h1, h2]

/-- C8 amended, witnessed at concrete inputs: an existing root-relative
candidate wins, and with nothing on disk the root-relative candidate is
returned. -/
theorem resolveFilePath_amended_witness :
    resolveFilePath [("/q/A.md", "")] "/q" "/q/x.md" "@A.md" = "/q/A.md" ∧
    resolveFilePath [] "/q" "/q/sub/x.md" "/doc.md" = "/q/doc.md" :=
  ⟨(resolveFilePath_amended [("/q/A.md", "")] "/q" "/q/x.md" "@A.md").1 rfl,
   (resolveFilePath_amended [] "/q" "/q/sub/x.md" "/doc.md").2 rfl rfl (fun _ => rfl)⟩


/-! ## Scope-discovery lemmas -/

theorem subStep_snd_shape (cfg : AgentConfig) (fs : FS) (st : Tree × List ContextScope)
    (ent : String × String) :
    (subStep cfg fs st ent).2 = st.2 ∨
    ∃ ns, (subStep cfg fs st ent).2
        = st.2 ++ [{ stype := .subagent, name := ent.2, entrypoint := ent.1
                     nodes := ns, filePaths := ns.map (fun n => n.path) }] ∧ ns ≠ [] := by
  unfold subStep
  dsimp only
  set t2 := if (lookupA st.1.nodes ent.1).isSome = true then st.1
            else (processFile cfg fs 5 st.1 ent.1 none 1).1 with ht2
  split_ifs with h1 h2
  · right
    exact ⟨_, rfl, List.length_pos.mp h2⟩
  · left; rfl
  · left; rfl

theorem foldl_subStep_shape (cfg : AgentConfig) (fs : FS) (entries : List (String × String)) :
    ∀ st : Tree × List ContextScope,
    ∃ extra, (entries.foldl (subStep cfg fs) st).2 = st.2 ++ extra ∧
      (∀ s ∈ extra, s.stype = .subagent ∧ s.nodes ≠ []) ∧
      List.Sublist (extra.map (fun s => s.entrypoint)) (entries.map Prod.fst) := by
  induction entries with
  | nil => intro st; exact ⟨[], by simp, by simp, by simp⟩
  | cons e rest ih =>
    intro st
    simp only [List.foldl_cons, List.map_cons]
    obtain ⟨extra, heq, hsub, hsl⟩ := ih (subStep cfg fs st e)
    rcases subStep_snd_shape cfg fs st e with h | ⟨ns, h, hns⟩
    · refine ⟨extra, ?_, hsub, hsl.cons e.1⟩
      rw [heq, h]
    · refine ⟨{ stype := .subagent, name := e.2, entrypoint := e.1, nodes := ns,
                filePaths := ns.map (fun n => n.path) } :: extra, ?_, ?_, ?_⟩
      · rw [heq, h, List.append_assoc]; rfl
      · intro s hs
        rcases List.mem_cons.mp hs with h' | h'
        · subst h'; exact ⟨rfl, hns⟩
        · exact hsub s h'
      · simpa using hsl.cons₂ e.1


theorem subagentPass_snd (cfg : AgentConfig) (fs : FS) (t : Tree) (root : String) :
    ∃ extra, (subagentPass cfg fs t root).2 = extra ∧
      (∀ s ∈ extra, s.stype = .subagent ∧ s.nodes ≠ []) ∧
      List.Sublist (extra.map (fun s => s.entrypoint)) ((subagentEntries fs t root).map Prod.fst) := by
  obtain ⟨extra, heq, hsub, hsl⟩ := foldl_subStep_shape cfg fs (subagentEntries fs t root) (t, [])
  exact ⟨extra, by unfold subagentPass; simpa using heq, hsub, hsl⟩

theorem discoverScopes_scope_nodes_nonempty (cfg : AgentConfig) (fs : FS) (t : Tree)
    (root : String) (s : ContextScope) (hs : s ∈ (DiscoverScopes cfg fs t root).2) :
    s.nodes ≠ [] := by
  obtain ⟨extra, hsubs, hsub, -⟩ := subagentPass_snd cfg fs t root
  unfold DiscoverScopes at hs
  dsimp only at hs
  rw [hsubs] at hs
  by_cases hm : 0 < (mainScopeOf (subagentPass cfg fs t root).1 root).nodes.length
  · rw [if_pos hm] at hs
    rcases List.mem_cons.mp hs with h | h
    · subst h; exact List.length_pos.mp hm
    · exact (hsub s h).2
  · rw [if_neg hm] at hs
    exact (hsub s hs).2

theorem discoverScopesWith_ordering (cfg : AgentConfig) (fs : FS) (t : Tree) (root : String)
    (order : List (String × String)) :
    (∀ s ∈ (DiscoverScopesWith cfg fs t root order).2, s.stype = .main ∨ s.stype = .subagent) ∧
    (∀ s ∈ (DiscoverScopesWith cfg fs t root order).2, s.stype = .main →
       (DiscoverScopesWith cfg fs t root order).2.head? = some s) ∧
    List.Sublist
      (((DiscoverScopesWith cfg fs t root order).2.filter
          (fun s => s.stype == ScopeType.subagent)).map (fun s => s.entrypoint))
      (order.map Prod.fst) ∧
    ((mainScopeOf (order.foldl (subStep cfg fs) (t, [])).1 root).nodes ≠ [] →
       ∃ s, (DiscoverScopesWith cfg fs t root order).2.head? = some s ∧
         s.stype = .main ∧ s.name = "main") := by
  obtain ⟨extra, heq, hsub, hsl⟩ := foldl_subStep_shape cfg fs order (t, [])
  have hsubs : (order.foldl (subStep cfg fs) (t, [])).2 = extra := by simpa using heq
  have hres : (DiscoverScopesWith cfg fs t root order).2 =
      if 0 < (mainScopeOf (order.foldl (subStep cfg fs) (t, [])).1 root).nodes.length
      then mainScopeOf (order.foldl (subStep cfg fs) (t, [])).1 root :: extra else extra := by
    unfold DiscoverScopesWith
    dsimp only
    rw [hsubs]
  have hmain : (mainScopeOf (order.foldl (subStep cfg fs) (t, [])).1 root).stype
      = ScopeType.main := rfl
  refine ⟨?_, ?_, ?_, ?_⟩
  · intro s hs
    rw [hres] at hs
    by_cases hm : 0 < (mainScopeOf (order.foldl (subStep cfg fs) (t, [])).1 root).nodes.length
    · rw [if_pos hm] at hs
      rcases List.mem_cons.mp hs with h | h
      · subst h; exact Or.inl hmain
      · exact Or.inr (hsub s h).1
    · rw [if_neg hm] at hs
      exact Or.inr (hsub s hs).1
  · intro s hs hmn
    rw [hres] at hs ⊢
    by_cases hm : 0 < (mainScopeOf (order.foldl (subStep cfg fs) (t, [])).1 root).nodes.length
    · rw [if_pos hm] at hs ⊢
      rcases List.mem_cons.mp hs with h | h
      · subst h; rfl
      · have := (hsub s h).1
        rw [hmn] at this
        simp at this
    · rw [if_neg hm] at hs
      have := (hsub s hs).1
      rw [hmn] at this
      simp at this
  · rw [hres]
    have hfe : extra.filter (fun s => s.stype == ScopeType.subagent) = extra :=
      List.filter_eq_self.mpr (fun s hs => by simp [(hsub s hs).1])
    by_cases hm : 0 < (mainScopeOf (order.foldl (subStep cfg fs) (t, [])).1 root).nodes.length
    · rw [if_pos hm]
      rw [List.filter_cons]
      have : ((mainScopeOf (order.foldl (subStep cfg fs) (t, [])).1 root).stype
          == ScopeType.subagent) = false := by rw [hmain]; rfl
      rw [this]
      simp only [Bool.false_eq_true, if_false, hfe]
      exact hfe ▸ hsl
    · rw [if_neg hm, hfe]
      exact hsl
  · intro hne
    have h0 := List.length_pos.mpr hne
    rw [hres, if_pos h0]
    exact ⟨_, rfl, rfl, rfl⟩


theorem foldl_leafStep_shape (cfg : AgentConfig) (fs : FS) (kind : ScopeType)
    (inputs : List (String × String)) :
    ∀ st : Tree × List Scope2,
    ((inputs.foldl (leafStep cfg fs kind) st).2).map (fun s => (s.stype, s.name, s.entrypoint))
      = st.2.map (fun s => (s.stype, s.name, s.entrypoint))
        ++ inputs.map (fun e => (kind, e.1, e.2)) := by
  induction inputs with
  | nil => intro st; simp
  | cons e rest ih =>
    intro st
    simp only [List.foldl_cons, List.map_cons]
    rw [ih]
    show (leafStep cfg fs kind st e).2.map _ ++ _ = _
    unfold leafStep
    dsimp only
    simp [Scope2.stype, Scope2.name, Scope2.entrypoint]

theorem leafPass_mem (cfg : AgentConfig) (fs : FS) (kind : ScopeType)
    (inputs : List (String × String)) (t : Tree) (e : String × String) (he : e ∈ inputs) :
    ∃ c ∈ (leafPass cfg fs kind inputs t).2,
      c.stype = kind ∧ c.name = e.1 ∧ c.entrypoint = e.2 := by
  have h := foldl_leafStep_shape cfg fs kind inputs (t, [])
  have hm : (kind, e.1, e.2) ∈
      (leafPass cfg fs kind inputs t).2.map (fun s => (s.stype, s.name, s.entrypoint)) := by
    unfold leafPass
    rw [h]
    simp only [List.map_nil, List.nil_append]
    exact List.mem_map_of_mem _ he
  obtain ⟨c, hc, hproj⟩ := List.mem_map.mp hm
  simp only [Prod.mk.injEq] at hproj
  exact ⟨c, hc, hproj.1, hproj.2.1, hproj.2.2⟩

theorem discoverScopesFull_commands_skills (cfg : AgentConfig) (fs : FS) (t : Tree)
    (root : String) :
    (∀ p ∈ commandFiles fs root,
      ∃ m, ((discoverScopesFull cfg fs t root).2).head? = some m ∧ m.stype = .main ∧
        ∃ c ∈ m.children, c.stype = .command ∧ c.name = commandName root p ∧ c.entrypoint = p) ∧
    (∀ np ∈ skillFiles fs root,
      ∃ m, ((discoverScopesFull cfg fs t root).2).head? = some m ∧ m.stype = .main ∧
        ∃ c ∈ m.children, c.stype = .skill ∧ c.name = np.1 ∧ c.entrypoint = np.2) := by
  constructor
  · intro p hp
    obtain ⟨c, hc, hck, hcn, hce⟩ := leafPass_mem cfg fs .command
      ((commandFiles fs root).map (fun q => (commandName root q, q)))
      (subagentPass cfg fs t root).1 (commandName root p, p) (List.mem_map_of_mem _ hp)
    unfold discoverScopesFull
    dsimp only
    set tsub := subagentPass cfg fs t root with htsub
    set tc := leafPass cfg fs ScopeType.command
      ((commandFiles fs root).map (fun q => (commandName root q, q))) tsub.1 with htc
    set tk := leafPass cfg fs ScopeType.skill (skillFiles fs root) tc.1 with htk
    have hne : tc.2 ≠ [] := List.ne_nil_of_mem hc
    have hcond : 0 < (mainScopeOf tk.1 root).nodes.length ∨ 0 < (tc.2 ++ tk.2).length :=
      Or.inr (List.length_pos.mpr (fun h => hne (List.append_eq_nil.mp h).1))
    rw [if_pos hcond]
    exact ⟨_, rfl, rfl, c, List.mem_append_left _ hc, hck, hcn, hce⟩
  · intro np hnp
    obtain ⟨c, hc, hck, hcn, hce⟩ := leafPass_mem cfg fs .skill (skillFiles fs root)
      (leafPass cfg fs ScopeType.command
        ((commandFiles fs root).map (fun q => (commandName root q, q)))
        (subagentPass cfg fs t root).1).1 np hnp
    unfold discoverScopesFull
    dsimp only
    set tsub := subagentPass cfg fs t root with htsub
    set tc := leafPass cfg fs ScopeType.command
      ((commandFiles fs root).map (fun q => (commandName root q, q))) tsub.1 with htc
    set tk := leafPass cfg fs ScopeType.skill (skillFiles fs root) tc.1 with htk
    have hne : tk.2 ≠ [] := List.ne_nil_of_mem hc
    have hcond : 0 < (mainScopeOf tk.1 root).nodes.length ∨ 0 < (tc.2 ++ tk.2).length :=
      Or.inr (List.length_pos.mpr (fun h => hne (List.append_eq_nil.mp h).2))
    rw [if_pos hcond]
    exact ⟨_, rfl, rfl, c, List.mem_append_right _ hc, hck, hcn, hce⟩

/-- C10: every scope returned by `DiscoverScopes` has a non-empty nodes list:
a discovered subagent whose reachable closure is empty is silently omitted
(no error is produced), and the main scope is omitted when nothing is
reachable from the root's children. -/
theorem discoverScopes_nonempty_nodes (cfg : AgentConfig) (fs : FS) (t : Tree)
    (root : String) (s : ContextScope) (hs : s ∈ (DiscoverScopes cfg fs t root).2) :
    s.nodes ≠ [] :=
  discoverScopes_scope_nodes_nonempty cfg fs t root s hs

/-- C10 witnessed on a concrete project: the discovered main scope has nodes. -/
theorem discoverScopes_nonempty_nodes_witness : exScopeMain.nodes ≠ [] :=
  discoverScopes_nonempty_nodes exCfg exFsMain exTreeMain "/p" exScopeMain (by decide)

/-- C1 counterexample: the subagent scopes do not follow discovery order.
`DiscoverScopes` ranges over the `subagentEntrypoints` Go map, whose iteration
order is unspecified and runtime-randomized, so any permutation of the
discovered entrypoint map is a legal run.  On a project with two subagents,
iterating the map in the reverse of discovery order — a legal run — returns
the subagent scopes' entrypoints in an order different from the
discovery-ordered entrypoint map. -/
theorem discoverScopes_ordering_counterexample :
    ∃ order : List (String × String),
      order.Perm (subagentEntries exFsAgents exTreeAgents "/p") ∧
      ((DiscoverScopesWith exCfg exFsAgents exTreeAgents "/p" order).2.filter
          (fun s => s.stype == ScopeType.subagent)).map (fun s => s.entrypoint)
        ≠ (subagentEntries exFsAgents exTreeAgents "/p").map Prod.fst :=
  ⟨(subagentEntries exFsAgents exTreeAgents "/p").reverse,
   (subagentEntries exFsAgents exTreeAgents "/p").reverse_perm, by decide⟩

/-- C1 (amended): for every legal iteration order of the subagent entrypoint
map — the source ranges over a Go map, so any permutation of the discovered
map is a legal run — the scope list returned by `DiscoverScopes` is
`[main, subagent_1, subagent_2, ...]`: every returned scope is main or
subagent, a main scope can only sit at the head, the main scope is returned
(at the head) whenever it has any nodes, and the subagent scopes appear in
the iteration order actually taken (a sublist of that order's entrypoints) —
not necessarily in discovery order.  The source's `ContextScope` has no child
scopes, so "has any nodes or children" degenerates to "has any nodes". -/
theorem discoverScopes_ordering_contract (cfg : AgentConfig) (fs : FS) (t : Tree)
    (root : String) (order : List (String × String))
    (_hperm : order.Perm (subagentEntries fs t root)) :
    (∀ s ∈ (DiscoverScopesWith cfg fs t root order).2, s.stype = .main ∨ s.stype = .subagent) ∧
    (∀ s ∈ (DiscoverScopesWith cfg fs t root order).2, s.stype = .main →
       (DiscoverScopesWith cfg fs t root order).2.head? = some s) ∧
    List.Sublist
      (((DiscoverScopesWith cfg fs t root order).2.filter
          (fun s => s.stype == ScopeType.subagent)).map (fun s => s.entrypoint))
      (order.map Prod.fst) ∧
    ((mainScopeOf (order.foldl (subStep cfg fs) (t, [])).1 root).nodes ≠ [] →
       ∃ s, (DiscoverScopesWith cfg fs t root order).2.head? = some s ∧
         s.stype = .main ∧ s.name = "main") :=
  discoverScopesWith_ordering cfg fs t root order

/-- C1 amended, witnessed on a concrete project with two subagents under the
reversed (legal) iteration order: the main scope has nodes and is returned
first. -/
theorem discoverScopes_ordering_contract_witness :
    (mainScopeOf ((subagentEntries exFsAgents exTreeAgents "/p").reverse.foldl
        (subStep exCfg exFsAgents) (exTreeAgents, [])).1 "/p").nodes ≠ [] ∧
    ∃ s, (DiscoverScopesWith exCfg exFsAgents exTreeAgents "/p"
        (subagentEntries exFsAgents exTreeAgents "/p").reverse).2.head? = some s ∧
      s.stype = .main ∧ s.name = "main" :=
  ⟨by decide,
   (discoverScopes_ordering_contract exCfg exFsAgents exTreeAgents "/p"
      (subagentEntries exFsAgents exTreeAgents "/p").reverse
      (subagentEntries exFsAgents exTreeAgents "/p").reverse_perm).2.2.2 (by decide)⟩

/-- C2: every command file under `.claude/commands/**/*.md` and every skill
file (`.claude/skills/<name>.md` or `.claude/skills/<name>/SKILL.md`) yields a
scope of the corresponding kind and name, attached as a child of the main
scope, which is returned first. -/
theorem discoverScopesFull_commands_skills_attached (cfg : AgentConfig) (fs : FS)
    (t : Tree) (root : String) :
    (∀ p ∈ commandFiles fs root,
      ∃ m, ((discoverScopesFull cfg fs t root).2).head? = some m ∧ m.stype = .main ∧
        ∃ c ∈ m.children, c.stype = .command ∧ c.name = commandName root p ∧ c.entrypoint = p) ∧
    (∀ np ∈ skillFiles fs root,
      ∃ m, ((discoverScopesFull cfg fs t root).2).head? = some m ∧ m.stype = .main ∧
        ∃ c ∈ m.children, c.stype = .skill ∧ c.name = np.1 ∧ c.entrypoint = np.2) :=
  discoverScopesFull_commands_skills cfg fs t root

/-- C2 witnessed on a concrete project holding commands and skills. -/
theorem discoverScopesFull_commands_skills_attached_witness :
    (∃ m, ((discoverScopesFull exCfg exFsCmd exTreeCmd "/p").2).head? = some m ∧
      m.stype = .main ∧
      ∃ c ∈ m.children, c.stype = ScopeType.command ∧
        c.name = commandName "/p" "/p/.claude/commands/git/push.md" ∧
        c.entrypoint = "/p/.claude/commands/git/push.md") ∧
    ∃ m, ((discoverScopesFull exCfg exFsCmd exTreeCmd "/p").2).head? = some m ∧
      m.stype = .main ∧
      ∃ c ∈ m.children, c.stype = ScopeType.skill ∧
        c.name = "ck-search" ∧ c.entrypoint = "/p/.claude/skills/ck-search/SKILL.md" :=
  ⟨(discoverScopesFull_commands_skills_attached exCfg exFsCmd exTreeCmd "/p").1
      "/p/.claude/commands/git/push.md" (by decide),
   (discoverScopesFull_commands_skills_attached exCfg exFsCmd exTreeCmd "/p").2
      ("ck-search", "/p/.claude/skills/ck-search/SKILL.md") (by decide)⟩

/-! ## Tree-builder invariant lemmas -/

theorem foldlPresMem {α β : Type} (P : α → Prop) (f : α → β → α) :
    ∀ (l : List β), (∀ a b, b ∈ l → P a → P (f a b)) → ∀ a, P a → P (l.foldl f a) := by
  intro l
  induction l with
  | nil => intro _ a h; simpa using h
  | cons x xs ih =>
    intro hstep a ha
    simp only [List.foldl_cons]
    exact ih (fun a b hb h => hstep a b (List.mem_cons_of_mem x hb) h) _
      (hstep a x (List.mem_cons_self x xs) ha)

theorem mem_updateA {α : Type} {m : List (String × α)} {p : String} {v : α}
    {e : String × α} (he : e ∈ updateA m p v) : e ∈ m ∨ e = (p, v) := by
  obtain ⟨x, hx, hfx⟩ := List.mem_map.mp he
  by_cases h : x.1 = p
  · right; rw [← hfx]; simp [h]
  · left
    rw [← hfx]
    simp only [if_neg h]
    exact hx

theorem lookupA_updateA_isSome {α : Type} (m : List (String × α)) (p : String) (v : α)
    (k : String) : (lookupA (updateA m p v) k).isSome = (lookupA m k).isSome := by
  induction m with
  | nil => rfl
  | cons e rest ih =>
    obtain ⟨a, w⟩ := e
    by_cases h : a = p
    · subst h
      simp only [updateA, List.map_cons, if_pos rfl]
      by_cases hk : k = a <;> simp [updateA] at ih ⊢ <;> simp [hk, ih]
    · simp only [updateA, List.map_cons, if_neg h]
      by_cases hk : k = a <;> simp [updateA] at ih ⊢ <;> simp [hk, ih]

theorem lookupA_mem {α : Type} {m : List (String × α)} {k : String} {v : α}
    (h : lookupA m k = some v) : (k, v) ∈ m := by
  induction m with
  | nil => simp at h
  | cons e rest ih =>
    obtain ⟨a, w⟩ := e
    by_cases hk : k = a
    · subst hk
      simp at h
      simp [h]
    · simp [hk] at h
      exact List.mem_cons_of_mem _ (ih h)

/-- Case analysis on `registerNode`. -/
theorem registerNode_cases (cfg : AgentConfig) (fs : FS) (t : Tree) (path : String)
    (par : Option String) (d : Nat) :
    (registerNode cfg fs t path par d = .inl (t, some path) ∧
      (lookupA t.nodes path).isSome = true) ∨
    (registerNode cfg fs t path par d = .inl (t, none)) ∨
    (∃ content, lookupA t.nodes path = none ∧ lookupA fs path = some content ∧
      registerNode cfg fs t path par d = .inr
        ({ t with nodes := t.nodes ++
            [(path, { path := path, content := content
                      references := extractReferences content path cfg
                      children := [], parent := par, depth := d })] },
         { path := path, content := content
           references := extractReferences content path cfg
           children := [], parent := par, depth := d })) := by
  unfold registerNode
  cases hl : lookupA t.nodes path with
  | some v => exact Or.inl ⟨rfl, by simp⟩
  | none =>
    cases hf : lookupA fs path with
    | none => exact Or.inr (Or.inl rfl)
    | some content => exact Or.inr (Or.inr ⟨content, rfl, rfl, rfl⟩)


/-- Lookup preservation through one `walkStep`. -/
theorem walkStep_lookup_pres (cfg : AgentConfig) (fs : FS)
    (rec : Tree → String → Option String → Nat → Tree × Option String)
    (path : String) (d : Nat) (k : String)
    (hrec : ∀ t p par dd, (lookupA t.nodes k).isSome = true →
      (lookupA (rec t p par dd).1.nodes k).isSome = true)
    (a : Tree × List Reference × List String × List String) (b : Reference)
    (hP : (lookupA a.1.nodes k).isSome = true) :
    (lookupA (walkStep cfg fs rec path d a b).1.nodes k).isSome = true := by
  unfold walkStep
  dsimp only
  by_cases hrt : b.rtype = RefType.file
  · rw [if_pos hrt]
    by_cases hst : stat fs (resolveFilePath fs a.1.rootPath path b.value)
    · rw [if_pos hst]
      by_cases hsn : a.2.2.2.contains (resolveFilePath fs a.1.rootPath path b.value)
      · rw [if_pos hsn]; exact hP
      · rw [if_neg hsn]
        cases hpr : (rec a.1 (resolveFilePath fs a.1.rootPath path b.value)
            (some path) (d + 1)).2 <;>
          simp only [hpr] <;> exact hrec a.1 _ (some path) (d + 1) hP
    · rw [if_neg hst]; exact hP
  · rw [if_neg hrt]; exact hP

/-- Monotonicity: `processFile` never removes a node-map key. -/
theorem processFile_lookup_mono (cfg : AgentConfig) (fs : FS) :
    ∀ (fuel : Nat) (t : Tree) (path : String) (par : Option String) (d : Nat) (k : String),
    (lookupA t.nodes k).isSome = true →
    (lookupA (processFile cfg fs fuel t path par d).1.nodes k).isSome = true := by
  intro fuel
  induction fuel with
  | zero =>
    intro t path par d k hk
    rcases registerNode_cases cfg fs t path par d with ⟨hreg, _⟩ | hreg | ⟨content, hl, hf, hreg⟩
    · unfold processFile; rw [hreg]; exact hk
    · unfold processFile; rw [hreg]; exact hk
    · unfold processFile; rw [hreg]
      obtain ⟨v, hv⟩ := Option.isSome_iff_exists.mp hk
      dsimp only
      rw [lookupA_append_some _ hv]
      rfl
  | succ f ih =>
    intro t path par d k hk
    rcases registerNode_cases cfg fs t path par d with ⟨hreg, _⟩ | hreg | ⟨content, hl, hf, hreg⟩
    · unfold processFile; rw [hreg]; exact hk
    · unfold processFile; rw [hreg]; exact hk
    · unfold processFile; rw [hreg]
      obtain ⟨v, hv⟩ := Option.isSome_iff_exists.mp hk
      have hbase : (lookupA (t.nodes ++
          [(path, { path := path, content := content
                    references := extractReferences content path cfg
                    children := [], parent := par, depth := d })]) k).isSome = true := by
        rw [lookupA_append_some _ hv]; rfl
      dsimp only
      by_cases hd : d < 5
      · rw [if_pos hd]
        dsimp only
        rw [lookupA_updateA_isSome]
        apply foldlPresMem
          (fun (st : Tree × List Reference × List String × List String) =>
            (lookupA st.1.nodes k).isSome = true)
        · intro a b _ hP
          exact walkStep_lookup_pres cfg fs _ path d k
            (fun t' p' par' dd hh => ih t' p' par' dd k hh) a b hP
        · exact hbase
      · rw [if_neg hd]
        exact hbase


/-- `processFile` either fails (`none`) or returns `some path` with the path
registered in the resulting node map. -/
theorem processFile_snd_cases (cfg : AgentConfig) (fs : FS) (fuel : Nat) (t : Tree)
    (path : String) (par : Option String) (d : Nat) :
    (processFile cfg fs fuel t path par d).2 = none ∨
    ((processFile cfg fs fuel t path par d).2 = some path ∧
      (lookupA (processFile cfg fs fuel t path par d).1.nodes path).isSome = true) := by
  rcases registerNode_cases cfg fs t path par d with ⟨hreg, hsome⟩ | hreg | ⟨content, hl, hf, hreg⟩
  · right
    cases fuel <;> (unfold processFile; rw [hreg]) <;> exact ⟨rfl, hsome⟩
  · left
    cases fuel <;> (unfold processFile; rw [hreg])
  · have hbase : (lookupA (t.nodes ++
        [(path, { path := path, content := content
                  references := extractReferences content path cfg
                  children := [], parent := par, depth := d })]) path).isSome = true := by
      rw [lookupA_append_none _ hl]; simp
    right
    cases fuel with
    | zero =>
      unfold processFile; rw [hreg]
      exact ⟨rfl, hbase⟩
    | succ f =>
      unfold processFile; rw [hreg]
      dsimp only
      by_cases hd : d < 5
      · rw [if_pos hd]
        refine ⟨rfl, ?_⟩
        dsimp only
        rw [lookupA_updateA_isSome]
        apply foldlPresMem
          (fun (st : Tree × List Reference × List String × List String) =>
            (lookupA st.1.nodes path).isSome = true)
        · intro a b _ hP
          exact walkStep_lookup_pres cfg fs _ path d path
            (fun t' p' par' dd hh => processFile_lookup_mono cfg fs f t' p' par' dd path hh)
            a b hP
        · exact hbase
      · rw [if_neg hd]
        exact ⟨rfl, hbase⟩

/-- Depth preservation through one `walkStep`: all registered nodes keep
depth ≥ 1. -/
theorem walkStep_depth_pres (cfg : AgentConfig) (fs : FS)
    (rec : Tree → String → Option String → Nat → Tree × Option String)
    (path : String) (d : Nat)
    (hrec : ∀ t p par, (∀ e ∈ t.nodes, 1 ≤ e.2.depth) →
      ∀ e ∈ (rec t p par (d + 1)).1.nodes, 1 ≤ e.2.depth)
    (a : Tree × List Reference × List String × List String) (b : Reference)
    (hP : ∀ e ∈ a.1.nodes, 1 ≤ e.2.depth) :
    ∀ e ∈ (walkStep cfg fs rec path d a b).1.nodes, 1 ≤ e.2.depth := by
  unfold walkStep
  dsimp only
  by_cases hrt : b.rtype = RefType.file
  · rw [if_pos hrt]
    by_cases hst : stat fs (resolveFilePath fs a.1.rootPath path b.value)
    · rw [if_pos hst]
      by_cases hsn : a.2.2.2.contains (resolveFilePath fs a.1.rootPath path b.value)
      · rw [if_pos hsn]; exact hP
      · rw [if_neg hsn]
        cases hpr : (rec a.1 (resolveFilePath fs a.1.rootPath path b.value)
            (some path) (d + 1)).2 <;>
          simp only [hpr] <;> exact hrec a.1 _ (some path) hP
    · rw [if_neg hst]; exact hP
  · rw [if_neg hrt]; exact hP

/-- Every node `processFile` registers has depth ≥ 1 when called with
depth ≥ 1. -/
theorem processFile_depth_ge (cfg : AgentConfig) (fs : FS) :
    ∀ (fuel : Nat) (t : Tree) (path : String) (par : Option String) (d : Nat),
    1 ≤ d → (∀ e ∈ t.nodes, 1 ≤ e.2.depth) →
    ∀ e ∈ (processFile cfg fs fuel t path par d).1.nodes, 1 ≤ e.2.depth := by
  intro fuel
  induction fuel with
  | zero =>
    intro t path par d hd1 ht
    rcases registerNode_cases cfg fs t path par d with ⟨hreg, _⟩ | hreg | ⟨content, hl, hf, hreg⟩
    · unfold processFile; rw [hreg]; exact ht
    · unfold processFile; rw [hreg]; exact ht
    · unfold processFile; rw [hreg]
      intro e he
      rcases List.mem_append.mp he with h | h
      · exact ht e h
      · rcases List.mem_singleton.mp h with rfl
        exact hd1
  | succ f ih =>
    intro t path par d hd1 ht
    rcases registerNode_cases cfg fs t path par d with ⟨hreg, _⟩ | hreg | ⟨content, hl, hf, hreg⟩
    · unfold processFile; rw [hreg]; exact ht
    · unfold processFile; rw [hreg]; exact ht
    · unfold processFile; rw [hreg]
      have hbase : ∀ e ∈ (t.nodes ++
          [(path, { path := path, content := content
                    references := extractReferences content path cfg
                    children := [], parent := par, depth := d })]), 1 ≤ e.2.depth := by
        intro e he
        rcases List.mem_append.mp he with h | h
        · exact ht e h
        · rcases List.mem_singleton.mp h with rfl
          exact hd1
      dsimp only
      by_cases hd : d < 5
      · rw [if_pos hd]
        dsimp only
        intro e he
        rcases mem_updateA he with h | h
        · clear he
          revert e h
          apply foldlPresMem
            (fun (st : Tree × List Reference × List String × List String) =>
              ∀ e ∈ st.1.nodes, 1 ≤ e.2.depth)
          · intro a b _ hP
            exact walkStep_depth_pres cfg fs _ path d
              (fun t' p' par' hh => ih t' p' par' (d + 1) (by omega) hh) a b hP
          · exact hbase
        · rw [h]
          exact hd1
      · rw [if_neg hd]
        exact hbase


theorem buildTree_shape (cfg : AgentConfig) (fs : FS) (rootPath : String) (t : Tree)
    (h : BuildTree cfg fs rootPath = .ok t) :
    ∃ entries : List String,
      t = { (entries.foldl (entryStep cfg fs rootPath) (initialTree rootPath, [])).1 with
            root := { rootNode rootPath with
              children := (entries.foldl (entryStep cfg fs rootPath)
                            (initialTree rootPath, [])).2 } } := by
  unfold BuildTree at h
  dsimp only at h
  by_cases he : (cfg.entrypoints.foldl (fun acc pat => acc ++ globEntry fs rootPath pat) []).isEmpty
  · rw [if_pos he] at h; cases h
  · rw [if_neg he] at h
    exact ⟨_, ((Except.ok.injEq _ _).mp h).symm⟩

theorem entryFold_inv (cfg : AgentConfig) (fs : FS) (rootPath : String)
    (entries : List String) :
    ∀ st : Tree × List String,
      (∀ e ∈ st.1.nodes, 1 ≤ e.2.depth) →
      (∀ c ∈ st.2, (lookupA st.1.nodes c).isSome = true) →
      (∀ e ∈ (entries.foldl (entryStep cfg fs rootPath) st).1.nodes, 1 ≤ e.2.depth) ∧
      (∀ c ∈ (entries.foldl (entryStep cfg fs rootPath) st).2,
        (lookupA (entries.foldl (entryStep cfg fs rootPath) st).1.nodes c).isSome = true) := by
  induction entries with
  | nil => intro st h1 h2; exact ⟨h1, h2⟩
  | cons e rest ih =>
    intro st h1 h2
    simp only [List.foldl_cons]
    apply ih
    · unfold entryStep
      cases hpr : (processFile cfg fs 5 st.1 e (some rootPath) 1).2 <;>
        simp only [hpr] <;>
        exact processFile_depth_ge cfg fs 5 st.1 e (some rootPath) 1 (le_refl 1) h1
    · unfold entryStep
      rcases processFile_snd_cases cfg fs 5 st.1 e (some rootPath) 1 with hn | ⟨hs, hsome⟩
      · simp only [hn]
        intro c hc
        exact processFile_lookup_mono cfg fs 5 st.1 e (some rootPath) 1 c (h2 c hc)
      · simp only [hs]
        intro c hc
        rcases List.mem_append.mp hc with hold | hnew
        · exact processFile_lookup_mono cfg fs 5 st.1 e (some rootPath) 1 c (h2 c hold)
        · rcases List.mem_singleton.mp hnew with rfl
          exact hsome


theorem buildTree_root_amended (cfg : AgentConfig) (fs : FS) (rootPath : String) (t : Tree)
    (h : BuildTree cfg fs rootPath = .ok t) :
    t.root.path = rootPath ∧ t.root.depth = 0 ∧
    ∀ c ∈ t.root.children, ∃ nd, lookupA t.nodes c = some nd ∧ 1 ≤ nd.depth := by
  obtain ⟨entries, ht⟩ := buildTree_shape cfg fs rootPath t h
  subst ht
  refine ⟨rfl, rfl, ?_⟩
  obtain ⟨hd, hc⟩ := entryFold_inv cfg fs rootPath entries (initialTree rootPath, [])
    (by intro e he; simp [initialTree] at he) (by intro c hc; simp at hc)
  intro c hcm
  obtain ⟨nd, hnd⟩ := Option.isSome_iff_exists.mp (hc c hcm)
  exact ⟨nd, hnd, hd (c, nd) (lookupA_mem hnd)⟩

theorem buildTree_root_amended_witness :
    exTreeMain.root.path = "/p" ∧ exTreeMain.root.depth = 0 ∧
    ∀ c ∈ exTreeMain.root.children, ∃ nd, lookupA exTreeMain.nodes c = some nd ∧ 1 ≤ nd.depth :=
  buildTree_root_amended exCfg exFsMain "/p" exTreeMain rfl


theorem extractReferences_raw (content path : String) (cfg : AgentConfig) :
    ∀ r ∈ extractReferences content path cfg, r.resolved = false ∧ r.target = "" := by
  unfold extractReferences
  dsimp only
  have base : ∀ r ∈ ([] : List Reference), r.resolved = false ∧ r.target = "" := by simp
  refine foldlPresMem
    (fun (refs : List Reference) => ∀ r ∈ refs, r.resolved = false ∧ r.target = "")
    _ _ ?_ _ base
  intro refs pat _ hP
  cases hc : pat.compiled with
  | none => simpa using hP
  | some re =>
    refine foldlPresMem
      (fun (refs : List Reference) => ∀ r ∈ refs, r.resolved = false ∧ r.target = "")
      _ _ ?_ _ hP
    intro refs2 lp _ hP2
    refine foldlPresMem
      (fun (refs : List Reference) => ∀ r ∈ refs, r.resolved = false ∧ r.target = "")
      _ _ ?_ _ hP2
    intro refs3 m _ hP3 r hr
    rcases List.mem_append.mp hr with h | h
    · exact hP3 r h
    · rcases List.mem_singleton.mp h with rfl
      exact ⟨rfl, rfl⟩

theorem rawRefOK (fs : FS) (hfs : stat fs "" = false) (r : Reference)
    (hr : r.resolved = false ∧ r.target = "") : RefOK fs r := by
  unfold RefOK
  rw [hr.1, hr.2, hfs]

theorem walkStep_refs_pres (cfg : AgentConfig) (fs : FS)
    (rec : Tree → String → Option String → Nat → Tree × Option String)
    (path : String) (d : Nat) (hfs : stat fs "" = false)
    (hrec : ∀ t p par, TreeRefsOK fs t → TreeRefsOK fs (rec t p par (d + 1)).1)
    (a : Tree × List Reference × List String × List String) (b : Reference)
    (hb : b.resolved = false ∧ b.target = "")
    (hP : TreeRefsOK fs a.1 ∧ ∀ r ∈ a.2.1, RefOK fs r) :
    TreeRefsOK fs (walkStep cfg fs rec path d a b).1 ∧
    ∀ r ∈ (walkStep cfg fs rec path d a b).2.1, RefOK fs r := by
  have hApp : ∀ (l : List Reference) (x : Reference), (∀ r ∈ l, RefOK fs r) → RefOK fs x →
      ∀ r ∈ l ++ [x], RefOK fs r := by
    intro l x hl hx r hr
    rcases List.mem_append.mp hr with h | h
    · exact hl r h
    · rcases List.mem_singleton.mp h with rfl
      exact hx
  unfold walkStep
  dsimp only
  by_cases hrt : b.rtype = RefType.file
  · rw [if_pos hrt]
    by_cases hst : stat fs (resolveFilePath fs a.1.rootPath path b.value) = true
    · rw [if_pos hst]
      have hok2 : RefOK fs
          { b with resolved := true, target := resolveFilePath fs a.1.rootPath path b.value } := by
        unfold RefOK
        simpa using hst.symm
      by_cases hsn : a.2.2.2.contains (resolveFilePath fs a.1.rootPath path b.value)
      · rw [if_pos hsn]
        exact ⟨hP.1, hApp _ _ hP.2 hok2⟩
      · rw [if_neg hsn]
        cases hpr : (rec a.1 (resolveFilePath fs a.1.rootPath path b.value)
            (some path) (d + 1)).2 <;>
          simp only [hpr] <;>
          exact ⟨hrec a.1 _ (some path) hP.1, hApp _ _ hP.2 hok2⟩
    · rw [if_neg hst]
      have hok1 : RefOK fs { b with target := resolveFilePath fs a.1.rootPath path b.value } := by
        unfold RefOK
        have : stat fs (resolveFilePath fs a.1.rootPath path b.value) = false :=
          Bool.not_eq_true _ ▸ eq_false_of_ne_true hst
        simp [hb.1, this]
      exact ⟨hP.1, hApp _ _ hP.2 hok1⟩
  · rw [if_neg hrt]
    exact ⟨hP.1, hApp _ _ hP.2 (rawRefOK fs hfs b hb)⟩


/-- All nodes registered by `processFile` satisfy the reference invariant. -/
theorem processFile_refsOK (cfg : AgentConfig) (fs : FS) (hfs : stat fs "" = false) :
    ∀ (fuel : Nat) (t : Tree) (path : String) (par : Option String) (d : Nat),
    TreeRefsOK fs t → TreeRefsOK fs (processFile cfg fs fuel t path par d).1 := by
  have hnode0 : ∀ (content path : String) (par : Option String) (d : Nat) (t : Tree),
      TreeRefsOK fs t →
      TreeRefsOK fs { t with nodes := t.nodes ++
        [(path, { path := path, content := content
                  references := extractReferences content path cfg
                  children := [], parent := par, depth := d })] } := by
    intro content path par d t ht e he r hr
    rcases List.mem_append.mp he with h | h
    · exact ht e h r hr
    · rcases List.mem_singleton.mp h with rfl
      exact rawRefOK fs hfs r (extractReferences_raw content path cfg r hr)
  intro fuel
  induction fuel with
  | zero =>
    intro t path par d ht
    rcases registerNode_cases cfg fs t path par d with ⟨hreg, _⟩ | hreg | ⟨content, hl, hf, hreg⟩
    · unfold processFile; rw [hreg]; exact ht
    · unfold processFile; rw [hreg]; exact ht
    · unfold processFile; rw [hreg]
      exact hnode0 content path par d t ht
  | succ f ih =>
    intro t path par d ht
    rcases registerNode_cases cfg fs t path par d with ⟨hreg, _⟩ | hreg | ⟨content, hl, hf, hreg⟩
    · unfold processFile; rw [hreg]; exact ht
    · unfold processFile; rw [hreg]; exact ht
    · unfold processFile; rw [hreg]
      dsimp only
      by_cases hd : d < 5
      · rw [if_pos hd]
        dsimp only
        have hfold := foldlPresMem
          (fun (st : Tree × List Reference × List String × List String) =>
            TreeRefsOK fs st.1 ∧ ∀ r ∈ st.2.1, RefOK fs r)
          (walkStep cfg fs (fun t' p' par' d' => processFile cfg fs f t' p' par' d') path d)
          (extractReferences content path cfg)
          (fun a b hb hP => walkStep_refs_pres cfg fs _ path d hfs
            (fun t' p' par' hh => ih t' p' par' (d + 1) hh) a b
            (extractReferences_raw content path cfg b hb) hP)
          ({ t with nodes := t.nodes ++
              [(path, { path := path, content := content
                        references := extractReferences content path cfg
                        children := [], parent := par, depth := d })] }, [], [], [])
          ⟨hnode0 content path par d t ht, by intro r hr; simp at hr⟩
        intro e he r hr
        rcases mem_updateA he with h | h
        · exact hfold.1 e h r hr
        · rw [h] at hr
          exact hfold.2 r hr
      · rw [if_neg hd]
        exact hnode0 content path par d t ht

/-- `BuildTree` establishes the reference invariant. -/
theorem buildTree_refsOK (cfg : AgentConfig) (fs : FS) (rootPath : String) (t : Tree)
    (hfs : stat fs "" = false) (h : BuildTree cfg fs rootPath = .ok t) :
    TreeRefsOK fs t := by
  obtain ⟨entries, ht⟩ := buildTree_shape cfg fs rootPath t h
  subst ht
  intro e he r hr
  revert r hr
  revert e he
  show TreeRefsOK fs _
  have := foldlPresMem
    (fun (st : Tree × List String) => TreeRefsOK fs st.1)
    (entryStep cfg fs rootPath) entries
    (fun a b hb hP => by
      unfold entryStep
      cases hpr : (processFile cfg fs 5 a.1 b (some rootPath) 1).2 <;>
        simp only [hpr] <;>
        exact processFile_refsOK cfg fs hfs 5 a.1 b (some rootPath) 1 hP)
    (initialTree rootPath, []) (by intro e he; simp [initialTree] at he)
  intro e he r hr
  exact this e he r hr

/-- `DiscoverScopes` preserves the reference invariant on the grown tree. -/
theorem discoverScopes_refsOK (cfg : AgentConfig) (fs : FS) (t : Tree) (root : String)
    (hfs : stat fs "" = false) (ht : TreeRefsOK fs t) :
    TreeRefsOK fs (DiscoverScopes cfg fs t root).1 := by
  unfold DiscoverScopes
  dsimp only
  unfold subagentPass
  exact foldlPresMem
    (fun (st : Tree × List ContextScope) => TreeRefsOK fs st.1)
    (subStep cfg fs) (subagentEntries fs t root)
    (fun a b hb hP => by
      unfold subStep
      dsimp only
      set t2 := if (lookupA a.1.nodes b.1).isSome = true then a.1
                else (processFile cfg fs 5 a.1 b.1 none 1).1 with ht2
      have hP2 : TreeRefsOK fs t2 := by
        rw [ht2]
        by_cases hin : (lookupA a.1.nodes b.1).isSome = true
        · rw [if_pos hin]; exact hP
        · rw [if_neg hin]; exact processFile_refsOK cfg fs hfs 5 a.1 b.1 none 1 hP
      split_ifs <;> exact hP2)
    (t, []) ht

/-- C4 amended: the returned tree's root is a synthetic node whose path is the
supplied root path (not the empty path) and whose depth is 0; each direct
child of the root is registered in the node map with depth at least 1 —
exactly 1 unless the entrypoint had already been processed at a greater depth
through an earlier entrypoint's references. -/
theorem buildTree_root_shape_amended (cfg : AgentConfig) (fs : FS) (rootPath : String)
    (t : Tree) (h : BuildTree cfg fs rootPath = .ok t) :
    t.root.path = rootPath ∧ t.root.depth = 0 ∧
    ∀ c ∈ t.root.children, ∃ nd, lookupA t.nodes c = some nd ∧ 1 ≤ nd.depth :=
  buildTree_root_amended cfg fs rootPath t h

/-- C4 amended, witnessed on a concrete project. -/
theorem buildTree_root_shape_amended_witness :
    exTreeMain.root.path = "/p" ∧ exTreeMain.root.depth = 0 ∧
    ∀ c ∈ exTreeMain.root.children, ∃ nd, lookupA exTreeMain.nodes c = some nd ∧ 1 ≤ nd.depth :=
  buildTree_root_shape_amended exCfg exFsMain "/p" exTreeMain rfl

/-- C9: on every node of a tree built by `BuildTree`, and still after scope
discovery has grown the tree, a reference's `resolved` flag is true iff its
`target` denotes an existing file (the filesystem is a constant snapshot, so
"at resolution time" is the same snapshot; the empty path is not a file). -/
theorem tree_references_resolved_iff (cfg : AgentConfig) (fs : FS) (rootPath : String)
    (t : Tree) (hfs : stat fs "" = false) (h : BuildTree cfg fs rootPath = .ok t) :
    (∀ e ∈ t.nodes, ∀ r ∈ e.2.references, (r.resolved = true ↔ stat fs r.target = true)) ∧
    (∀ e ∈ (DiscoverScopes cfg fs t rootPath).1.nodes, ∀ r ∈ e.2.references,
        (r.resolved = true ↔ stat fs r.target = true)) := by
  have h1 := buildTree_refsOK cfg fs rootPath t hfs h
  exact ⟨h1, discoverScopes_refsOK cfg fs t rootPath hfs h1⟩

/-- C9 witnessed on a concrete project with both resolved and unresolved
references (the depth-5 node's reference is recorded unresolved). -/
theorem tree_references_resolved_iff_witness :
    (∀ e ∈ exTreeChain.nodes, ∀ r ∈ e.2.references,
        (r.resolved = true ↔ stat exFsChain r.target = true)) ∧
    (∀ e ∈ (DiscoverScopes exCfg exFsChain exTreeChain "/p").1.nodes,
        ∀ r ∈ e.2.references, (r.resolved = true ↔ stat exFsChain r.target = true)) :=
  tree_references_resolved_iff exCfg exFsChain "/p" exTreeChain rfl rfl

/-! ## Symbolic execution of `processFile` (computation lemmas) and the
cycle-safety, dedup and depth-bound claims -/

/-- A path already in the node map is returned unchanged (the cycle guard). -/
theorem processFile_existing (cfg : AgentConfig) (fs : FS) (fuel : Nat) (t : Tree)
    (path : String) (par : Option String) (d : Nat) (nd : ConfigNode)
    (h : lookupA t.nodes path = some nd) :
    processFile cfg fs fuel t path par d = (t, some path) := by
  have hreg : registerNode cfg fs t path par d = .inl (t, some path) := by
    unfold registerNode; rw [h]
  cases fuel <;> (unfold processFile; rw [hreg])

/-- Unreadable path: error, tree unchanged. -/
theorem processFile_readFail (cfg : AgentConfig) (fs : FS) (fuel : Nat) (t : Tree)
    (path : String) (par : Option String) (d : Nat)
    (h1 : lookupA t.nodes path = none) (h2 : lookupA fs path = none) :
    processFile cfg fs fuel t path par d = (t, none) := by
  have hreg : registerNode cfg fs t path par d = .inl (t, none) := by
    unfold registerNode; rw [h1, h2]
  cases fuel <;> (unfold processFile; rw [hreg])

/-- A fresh readable path at the depth bound: the node is registered with its
raw references and no children. -/
theorem processFile_fresh_deep (cfg : AgentConfig) (fs : FS) (fuel : Nat) (t : Tree)
    (path : String) (par : Option String) (d : Nat) (content : String)
    (h1 : lookupA t.nodes path = none) (h2 : lookupA fs path = some content)
    (hd : ¬ d < 5) :
    processFile cfg fs fuel t path par d =
      ({ t with nodes := t.nodes ++ [(path,
          { path := path, content := content
            references := extractReferences content path cfg
            children := [], parent := par, depth := d })] }, some path) := by
  cases fuel with
  | zero =>
    unfold processFile
    unfold registerNode
    rw [h1, h2]
  | succ f =>
    unfold processFile
    unfold registerNode
    rw [h1, h2]
    dsimp only
    rw [if_neg hd]

/-- A fresh readable path below the depth bound: the node is registered, its
references are walked by `walkStep`, and the node entry is rewritten with the
final references and children. -/
theorem processFile_fresh (cfg : AgentConfig) (fs : FS) (fuel : Nat) (t : Tree)
    (path : String) (par : Option String) (d : Nat) (content : String)
    (st : Tree × List Reference × List String × List String)
    (hfuel : 0 < fuel) (h1 : lookupA t.nodes path = none)
    (h2 : lookupA fs path = some content) (hd : d < 5)
    (hst : (extractReferences content path cfg).foldl
        (walkStep cfg fs
          (fun t' p' par' d' => processFile cfg fs (fuel - 1) t' p' par' d') path d)
        ({ t with nodes := t.nodes ++ [(path,
            { path := path, content := content
              references := extractReferences content path cfg
              children := [], parent := par, depth := d })] }, [], [], []) = st) :
    processFile cfg fs fuel t path par d =
      ({ st.1 with
          nodes := updateA st.1.nodes path
              { path := path, content := content, references := st.2.1
                children := st.2.2.1, parent := par, depth := d } }, some path) := by
  cases fuel with
  | zero => simp at hfuel
  | succ f =>
    simp only [Nat.add_sub_cancel] at hst
    unfold processFile
    unfold registerNode
    rw [h1, h2]
    dsimp only
    rw [if_pos hd]
    rw [hst]

/-- `walkStep` on a non-file reference: appended unchanged. -/
theorem walkStep_nonfile (cfg : AgentConfig) (fs : FS)
    (rec : Tree → String → Option String → Nat → Tree × Option String)
    (path : String) (d : Nat)
    (a : Tree × List Reference × List String × List String) (b : Reference)
    (h : ¬ b.rtype = RefType.file) :
    walkStep cfg fs rec path d a b = (a.1, a.2.1 ++ [b], a.2.2.1, a.2.2.2) := by
  unfold walkStep
  rw [if_neg h]

/-- `walkStep` on a file reference whose target does not exist: Target set,
Resolved left false. -/
theorem walkStep_file_unresolved (cfg : AgentConfig) (fs : FS)
    (rec : Tree → String → Option String → Nat → Tree × Option String)
    (path : String) (d : Nat)
    (a : Tree × List Reference × List String × List String) (b : Reference) (Q : String)
    (h : b.rtype = RefType.file)
    (htar : resolveFilePath fs a.1.rootPath path b.value = Q)
    (hst : stat fs Q = false) :
    walkStep cfg fs rec path d a b =
      (a.1, a.2.1 ++ [{ b with target := Q }], a.2.2.1, a.2.2.2) := by
  unfold walkStep
  rw [if_pos h]
  dsimp only
  rw [htar, hst]
  simp

/-- `walkStep` on a resolved file reference whose target was already seen in
this file: reference kept resolved, no child processed. -/
theorem walkStep_file_seen (cfg : AgentConfig) (fs : FS)
    (rec : Tree → String → Option String → Nat → Tree × Option String)
    (path : String) (d : Nat)
    (a : Tree × List Reference × List String × List String) (b : Reference) (Q : String)
    (h : b.rtype = RefType.file)
    (htar : resolveFilePath fs a.1.rootPath path b.value = Q)
    (hst : stat fs Q = true)
    (hsn : a.2.2.2.contains Q = true) :
    walkStep cfg fs rec path d a b =
      (a.1, a.2.1 ++ [{ b with resolved := true, target := Q }], a.2.2.1, a.2.2.2) := by
  unfold walkStep
  rw [if_pos h]
  dsimp only
  rw [htar, hst, hsn]
  simp

/-- `walkStep` on a resolved, not-yet-seen file reference whose recursive
processing succeeds: tree grown, child appended, target marked seen. -/
theorem walkStep_file_child (cfg : AgentConfig) (fs : FS)
    (rec : Tree → String → Option String → Nat → Tree × Option String)
    (path : String) (d : Nat)
    (a : Tree × List Reference × List String × List String) (b : Reference) (Q : String)
    (t' : Tree) (cp : String)
    (h : b.rtype = RefType.file)
    (htar : resolveFilePath fs a.1.rootPath path b.value = Q)
    (hst : stat fs Q = true)
    (hsn : a.2.2.2.contains Q = false)
    (hrec : rec a.1 Q (some path) (d + 1) = (t', some cp)) :
    walkStep cfg fs rec path d a b =
      (t', a.2.1 ++ [{ b with resolved := true, target := Q }],
       a.2.2.1 ++ [cp], a.2.2.2 ++ [Q]) := by
  unfold walkStep
  rw [if_pos h]
  dsimp only
  rw [htar, hst, hsn, hrec]
  simp


/-- C5 (cycle safety): on any project where file A references file B and file B
references file A, both references resolving to existing files, `BuildTree`
terminates successfully and the node map holds exactly the two nodes A and B,
each exactly once.  Stated schematically over any config whose single
entrypoint globs to A and any two mutually referencing files. -/
theorem buildTree_cycle (cfg : AgentConfig) (fs : FS) (root pA A B cA cB : String)
    (rA rB : Reference)
    (hAB : A ≠ B)
    (hent : cfg.entrypoints = [pA])
    (hglob : joinP [root, pA] = A)
    (hsA : lookupA fs A = some cA)
    (hsB : lookupA fs B = some cB)
    (hexA : extractReferences cA A cfg = [rA])
    (hrA : rA.rtype = RefType.file)
    (hresA : resolveFilePath fs root A rA.value = B)
    (hexB : extractReferences cB B cfg = [rB])
    (hrB : rB.rtype = RefType.file)
    (hresB : resolveFilePath fs root B rB.value = A) :
    ∃ t, BuildTree cfg fs root = .ok t ∧ t.nodes.map Prod.fst = [A, B] := by
  have hstatA : stat fs A = true := by unfold stat; rw [hsA]; rfl
  have hstatB : stat fs B = true := by unfold stat; rw [hsB]; rfl
  have hBA : B ≠ A := Ne.symm hAB
  let nA0 : ConfigNode :=
    { path := A, content := cA, references := extractReferences cA A cfg,
      children := [], parent := some root, depth := 1 }
  let T1 : Tree := { initialTree root with nodes := (initialTree root).nodes ++ [(A, nA0)] }
  let nB0 : ConfigNode :=
    { path := B, content := cB, references := extractReferences cB B cfg,
      children := [], parent := some A, depth := 1 + 1 }
  let T2 : Tree := { T1 with nodes := T1.nodes ++ [(B, nB0)] }
  have hlT2A : lookupA T2.nodes A = some nA0 := by
    show lookupA ((initialTree root).nodes ++ [(A, nA0)] ++ [(B, nB0)]) A = some nA0
    simp [initialTree, lookupA]
  have hPF3 : processFile cfg fs 3 T2 A (some B) (1 + 1 + 1) = (T2, some A) :=
    processFile_existing cfg fs 3 T2 A (some B) (1 + 1 + 1) nA0 hlT2A
  have hfoldB : (extractReferences cB B cfg).foldl
      (walkStep cfg fs (fun t' p' par' d' => processFile cfg fs (4 - 1) t' p' par' d') B (1 + 1))
      (T2, [], [], []) = (T2, [{ rB with resolved := true, target := A }], [A], [A]) := by
    rw [hexB]
    simp only [List.foldl_cons, List.foldl_nil]
    have hw := walkStep_file_child cfg fs
      (fun t' p' par' d' => processFile cfg fs (4 - 1) t' p' par' d') B (1 + 1)
      (T2, [], [], []) rB A T2 A hrB hresB hstatA rfl hPF3
    rw [hw]
    simp
  let nB1 : ConfigNode :=
    { path := B, content := cB, references := [{ rB with resolved := true, target := A }],
      children := [A], parent := some A, depth := 1 + 1 }
  let T3 : Tree := { T2 with nodes := updateA T2.nodes B nB1 }
  have hlT1B : lookupA T1.nodes B = none := by
    show lookupA ((initialTree root).nodes ++ [(A, nA0)]) B = none
    simp [initialTree, lookupA, hBA]
  have hPF4 : processFile cfg fs 4 T1 B (some A) (1 + 1) = (T3, some B) :=
    processFile_fresh cfg fs 4 T1 B (some A) (1 + 1) cB
      (T2, [{ rB with resolved := true, target := A }], [A], [A])
      (by decide) hlT1B hsB (by decide) hfoldB
  have hfoldA : (extractReferences cA A cfg).foldl
      (walkStep cfg fs (fun t' p' par' d' => processFile cfg fs (5 - 1) t' p' par' d') A 1)
      (T1, [], [], []) = (T3, [{ rA with resolved := true, target := B }], [B], [B]) := by
    rw [hexA]
    simp only [List.foldl_cons, List.foldl_nil]
    have hw := walkStep_file_child cfg fs
      (fun t' p' par' d' => processFile cfg fs (5 - 1) t' p' par' d') A 1
      (T1, [], [], []) rA B T3 B hrA hresA hstatB rfl hPF4
    rw [hw]
    simp
  let nA1 : ConfigNode :=
    { path := A, content := cA, references := [{ rA with resolved := true, target := B }],
      children := [B], parent := some root, depth := 1 }
  have hlA0 : lookupA (initialTree root).nodes A = none := rfl
  have hPF5 : processFile cfg fs 5 (initialTree root) A (some root) 1 =
      ({ T3 with nodes := updateA T3.nodes A nA1 }, some A) :=
    processFile_fresh cfg fs 5 (initialTree root) A (some root) 1 cA
      (T3, [{ rA with resolved := true, target := B }], [B], [B])
      (by decide) hlA0 hsA (by decide) hfoldA
  have hentry : cfg.entrypoints.foldl (fun acc pat => acc ++ globEntry fs root pat) [] = [A] := by
    rw [hent]
    simp only [List.foldl_cons, List.foldl_nil, List.nil_append]
    unfold globEntry
    dsimp only
    rw [hglob, hstatA]
    simp
  refine ⟨{ { T3 with nodes := updateA T3.nodes A nA1 } with
            root := { rootNode root with children := [] ++ [A] } }, ?_, ?_⟩
  · unfold BuildTree
    rw [hentry]
    simp only [List.isEmpty_cons, List.foldl_cons, List.foldl_nil]
    rw [if_neg (by simp)]
    unfold entryStep
    rw [hPF5]
  · show (updateA T3.nodes A nA1).map Prod.fst = [A, B]
    show (updateA (updateA ((initialTree root).nodes ++ [(A, nA0)] ++ [(B, nB0)]) B nB1) A nA1).map
      Prod.fst = [A, B]
    simp [initialTree, updateA, hAB, hBA]


/-- C6 (amended): two references in the same file resolving to the same target
yield exactly one child entry for that target with depth parent+1, and both
occurrences stay in the node's references list (resolved, with the shared
target) — provided the target was not already in the node map.  (When the
target already exists in the map it is re-used as the child and keeps its old
depth, the correction recorded by the C6 counterexample.) -/
theorem processFile_dedup_amended (cfg : AgentConfig) (fs : FS) (fuel : Nat) (t : Tree)
    (P : String) (par : Option String) (d : Nat) (cP Q cQ : String) (r1 r2 : Reference)
    (hfuel : 0 < fuel) (hd : d < 5)
    (hQP : Q ≠ P)
    (hlP : lookupA t.nodes P = none)
    (hlQ : lookupA t.nodes Q = none)
    (hsP : lookupA fs P = some cP)
    (hsQ : lookupA fs Q = some cQ)
    (hex : extractReferences cP P cfg = [r1, r2])
    (hr1 : r1.rtype = RefType.file) (hr2 : r2.rtype = RefType.file)
    (hres1 : resolveFilePath fs t.rootPath P r1.value = Q)
    (hres2 : resolveFilePath fs t.rootPath P r2.value = Q)
    (hexQ : extractReferences cQ Q cfg = []) :
    ∃ t', processFile cfg fs fuel t P par d = (t', some P) ∧
      (∃ nd, lookupA t'.nodes P = some nd ∧ nd.children = [Q] ∧
        nd.references = [{ r1 with resolved := true, target := Q },
                         { r2 with resolved := true, target := Q }]) ∧
      (∃ ndQ, lookupA t'.nodes Q = some ndQ ∧ ndQ.depth = d + 1) := by
  have hstQ : stat fs Q = true := by unfold stat; rw [hsQ]; rfl
  let nP0 : ConfigNode :=
    { path := P, content := cP, references := extractReferences cP P cfg,
      children := [], parent := par, depth := d }
  let T1 : Tree := { t with nodes := t.nodes ++ [(P, nP0)] }
  let nQ0 : ConfigNode :=
    { path := Q, content := cQ, references := extractReferences cQ Q cfg,
      children := [], parent := some P, depth := d + 1 }
  let nQ1 : ConfigNode :=
    { path := Q, content := cQ, references := [],
      children := [], parent := some P, depth := d + 1 }
  let T2 : Tree := { T1 with nodes := T1.nodes ++ [(Q, nQ1)] }
  have hlT1Q : lookupA T1.nodes Q = none := by
    show lookupA (t.nodes ++ [(P, nP0)]) Q = none
    rw [lookupA_append_none _ hlQ]
    simp [lookupA, hQP]
  have hupd : updateA (T1.nodes ++ [(Q, nQ0)]) Q nQ1 = T1.nodes ++ [(Q, nQ1)] := by
    rw [updateA_append, updateA_of_lookupA_none _ hlT1Q]
    simp [updateA]
  have hupd2 : updateA (T1.nodes ++ [(Q, nQ1)]) Q nQ1 = T1.nodes ++ [(Q, nQ1)] := by
    rw [updateA_append, updateA_of_lookupA_none _ hlT1Q]
    simp [updateA]
  have hrecQ : processFile cfg fs (fuel - 1) T1 Q (some P) (d + 1) = (T2, some Q) := by
    rcases Nat.eq_zero_or_pos (fuel - 1) with hf0 | hfpos
    · rw [hf0]
      unfold processFile
      unfold registerNode
      rw [hlT1Q, hsQ]
      dsimp only
      rw [hexQ]
    · by_cases hd5 : d + 1 < 5
      · have h5 := processFile_fresh cfg fs (fuel - 1) T1 Q (some P) (d + 1) cQ
          (T2, [], [], []) hfpos hlT1Q hsQ hd5 (by rw [hexQ]; rfl)
        rw [h5]
        show Prod.mk ({ T2 with nodes := updateA (T1.nodes ++ [(Q, nQ1)]) Q nQ1 } : Tree)
          (some Q) = (T2, some Q)
        rw [hupd2]
      · have h5 := processFile_fresh_deep cfg fs (fuel - 1) T1 Q (some P) (d + 1) cQ
          hlT1Q hsQ hd5
        rw [h5]
        rw [hexQ]
  have hfoldP : (extractReferences cP P cfg).foldl
      (walkStep cfg fs (fun t' p' par' d' => processFile cfg fs (fuel - 1) t' p' par' d') P d)
      (T1, [], [], []) =
      (T2, [{ r1 with resolved := true, target := Q },
            { r2 with resolved := true, target := Q }], [Q], [Q]) := by
    rw [hex]
    simp only [List.foldl_cons, List.foldl_nil]
    have hw1 := walkStep_file_child cfg fs
      (fun t' p' par' d' => processFile cfg fs (fuel - 1) t' p' par' d') P d
      (T1, [], [], []) r1 Q T2 Q hr1 hres1 hstQ rfl hrecQ
    rw [hw1]
    have hw2 := walkStep_file_seen cfg fs
      (fun t' p' par' d' => processFile cfg fs (fuel - 1) t' p' par' d') P d
      (T2, [] ++ [{ r1 with resolved := true, target := Q }], [] ++ [Q], [] ++ [Q]) r2 Q
      hr2 hres2 hstQ (by simp)
    rw [hw2]
    simp
  let nP1 : ConfigNode :=
    { path := P, content := cP,
      references := [{ r1 with resolved := true, target := Q },
                     { r2 with resolved := true, target := Q }],
      children := [Q], parent := par, depth := d }
  have hPF := processFile_fresh cfg fs fuel t P par d cP
    (T2, [{ r1 with resolved := true, target := Q },
          { r2 with resolved := true, target := Q }], [Q], [Q]) hfuel hlP hsP hd hfoldP
  have e1 : updateA [(P, nP0)] P nP1 = [(P, nP1)] := by simp [updateA]
  have e2 : updateA [(Q, nQ1)] P nP1 = [(Q, nQ1)] := by simp [updateA, hQP]
  refine ⟨{ T2 with nodes := updateA T2.nodes P nP1 }, ?_, ?_, ?_⟩
  · rw [hPF]
  · have hP1 : lookupA (updateA T2.nodes P nP1) P = some nP1 := by
      show lookupA (updateA ((t.nodes ++ [(P, nP0)]) ++ [(Q, nQ1)]) P nP1) P = some nP1
      rw [updateA_append, updateA_append, updateA_of_lookupA_none _ hlP, e1, e2]
      have h0 : lookupA (t.nodes ++ [(P, nP1)]) P = some nP1 := by
        rw [lookupA_append_none _ hlP]
        simp [lookupA]
      exact lookupA_append_some _ h0
    exact ⟨nP1, hP1, rfl, rfl⟩
  · have hQ1 : lookupA (updateA T2.nodes P nP1) Q = some nQ1 := by
      show lookupA (updateA ((t.nodes ++ [(P, nP0)]) ++ [(Q, nQ1)]) P nP1) Q = some nQ1
      rw [updateA_append, updateA_append, updateA_of_lookupA_none _ hlP, e1, e2]
      have h0 : lookupA (t.nodes ++ [(P, nP1)]) Q = none := by
        rw [lookupA_append_none _ hlQ]
        simp [lookupA, hQP]
      rw [lookupA_append_none _ h0]
      simp [lookupA]
    exact ⟨nQ1, hQ1, rfl⟩

/-- C7 (depth bound): on a chain of six files each referencing the next,
starting from a single entrypoint at depth 1, `BuildTree` creates nodes only
through depth 5: the node map is exactly the first five files, the depth-5
node still records its (unresolved) reference to the sixth file, and no node
for the sixth file exists. -/
theorem buildTree_depth_bound (cfg : AgentConfig) (fs : FS) (root p1 : String)
    (f1 f2 f3 f4 f5 f6 c1 c2 c3 c4 c5 c6 : String) (r1 r2 r3 r4 r5 : Reference)
    (hnd : [f1, f2, f3, f4, f5, f6].Nodup)
    (hent : cfg.entrypoints = [p1])
    (hglob : joinP [root, p1] = f1)
    (hs1 : lookupA fs f1 = some c1)
    (hs2 : lookupA fs f2 = some c2)
    (hs3 : lookupA fs f3 = some c3)
    (hs4 : lookupA fs f4 = some c4)
    (hs5 : lookupA fs f5 = some c5)
    (_hs6 : lookupA fs f6 = some c6)
    (hex1 : extractReferences c1 f1 cfg = [r1])
    (hex2 : extractReferences c2 f2 cfg = [r2])
    (hex3 : extractReferences c3 f3 cfg = [r3])
    (hex4 : extractReferences c4 f4 cfg = [r4])
    (hex5 : extractReferences c5 f5 cfg = [r5])
    (hr1 : r1.rtype = RefType.file)
    (hr2 : r2.rtype = RefType.file)
    (hr3 : r3.rtype = RefType.file)
    (hr4 : r4.rtype = RefType.file)
    (_hr5 : r5.rtype = RefType.file)
    (hres1 : resolveFilePath fs root f1 r1.value = f2)
    (hres2 : resolveFilePath fs root f2 r2.value = f3)
    (hres3 : resolveFilePath fs root f3 r3.value = f4)
    (hres4 : resolveFilePath fs root f4 r4.value = f5)
    (_hres5 : resolveFilePath fs root f5 r5.value = f6) :
    ∃ t, BuildTree cfg fs root = .ok t ∧
      t.nodes.map Prod.fst = [f1, f2, f3, f4, f5] ∧
      (∃ nd, lookupA t.nodes f5 = some nd ∧ nd.depth = 5 ∧
        nd.references = [r5] ∧ nd.children = []) ∧
      lookupA t.nodes f6 = none := by
  simp only [List.nodup_cons, List.mem_cons, List.mem_singleton, List.not_mem_nil,
    or_false, not_or, List.nodup_nil, and_true] at hnd
  obtain ⟨⟨h12, h13, h14, h15, h16⟩, ⟨h23, h24, h25, h26⟩, ⟨h34, h35, h36⟩,
    ⟨h45, h46⟩, h56, -⟩ := hnd
  have h21 := Ne.symm h12
  have h31 := Ne.symm h13
  have h32 := Ne.symm h23
  have h41 := Ne.symm h14
  have h42 := Ne.symm h24
  have h43 := Ne.symm h34
  have h51 := Ne.symm h15
  have h52 := Ne.symm h25
  have h53 := Ne.symm h35
  have h54 := Ne.symm h45
  have h61 := Ne.symm h16
  have h62 := Ne.symm h26
  have h63 := Ne.symm h36
  have h64 := Ne.symm h46
  have h65 := Ne.symm h56
  have hst1 : stat fs f1 = true := by unfold stat; rw [hs1]; rfl
  have hst2 : stat fs f2 = true := by unfold stat; rw [hs2]; rfl
  have hst3 : stat fs f3 = true := by unfold stat; rw [hs3]; rfl
  have hst4 : stat fs f4 = true := by unfold stat; rw [hs4]; rfl
  have hst5 : stat fs f5 = true := by unfold stat; rw [hs5]; rfl
  let n1_0 : ConfigNode :=
    { path := f1, content := c1, references := extractReferences c1 f1 cfg,
      children := [], parent := some root, depth := 1 }
  let T1 : Tree := { initialTree root with nodes := (initialTree root).nodes ++ [(f1, n1_0)] }
  let n2_0 : ConfigNode :=
    { path := f2, content := c2, references := extractReferences c2 f2 cfg,
      children := [], parent := some f1, depth := 2 }
  let T2 : Tree := { T1 with nodes := T1.nodes ++ [(f2, n2_0)] }
  let n3_0 : ConfigNode :=
    { path := f3, content := c3, references := extractReferences c3 f3 cfg,
      children := [], parent := some f2, depth := 3 }
  let T3 : Tree := { T2 with nodes := T2.nodes ++ [(f3, n3_0)] }
  let n4_0 : ConfigNode :=
    { path := f4, content := c4, references := extractReferences c4 f4 cfg,
      children := [], parent := some f3, depth := 4 }
  let T4 : Tree := { T3 with nodes := T3.nodes ++ [(f4, n4_0)] }
  let n5 : ConfigNode :=
    { path := f5, content := c5, references := [r5],
      children := [], parent := some f4, depth := 5 }
  let T5 : Tree := { T4 with nodes := T4.nodes ++ [(f5, n5)] }
  have hlT1f2 : lookupA T1.nodes f2 = none := by
    show lookupA ((initialTree root).nodes ++ [(f1, n1_0)]) f2 = none
    simp [initialTree, lookupA, h21]
  have hlT2f3 : lookupA T2.nodes f3 = none := by
    show lookupA (((initialTree root).nodes ++ [(f1, n1_0)]) ++ [(f2, n2_0)]) f3 = none
    simp [initialTree, lookupA, h31, h32]
  have hlT3f4 : lookupA T3.nodes f4 = none := by
    show lookupA ((((initialTree root).nodes ++ [(f1, n1_0)]) ++ [(f2, n2_0)]) ++
      [(f3, n3_0)]) f4 = none
    simp [initialTree, lookupA, h41, h42, h43]
  have hlT4f5 : lookupA T4.nodes f5 = none := by
    show lookupA (((((initialTree root).nodes ++ [(f1, n1_0)]) ++ [(f2, n2_0)]) ++
      [(f3, n3_0)]) ++ [(f4, n4_0)]) f5 = none
    simp [initialTree, lookupA, h51, h52, h53, h54]
  have hPF5 : processFile cfg fs 1 T4 f5 (some f4) 5 = (T5, some f5) := by
    have h := processFile_fresh_deep cfg fs 1 T4 f5 (some f4) 5 c5 hlT4f5 hs5 (by decide)
    rw [hex5] at h
    exact h
  have hfold4 : (extractReferences c4 f4 cfg).foldl
      (walkStep cfg fs (fun t' p' par' d' => processFile cfg fs (2 - 1) t' p' par' d') f4 4)
      (T4, [], [], []) =
      (T5, [{ r4 with resolved := true, target := f5 }], [f5], [f5]) := by
    rw [hex4]
    simp only [List.foldl_cons, List.foldl_nil]
    have hw := walkStep_file_child cfg fs
      (fun t' p' par' d' => processFile cfg fs (2 - 1) t' p' par' d') f4 4
      (T4, [], [], []) r4 f5 T5 f5 hr4 hres4 hst5 rfl hPF5
    rw [hw]
    simp
  let n4_1 : ConfigNode :=
    { path := f4, content := c4,
      references := [{ r4 with resolved := true, target := f5 }],
      children := [f5], parent := some f3, depth := 4 }
  let U4 : Tree := { T5 with nodes := updateA T5.nodes f4 n4_1 }
  have hPF4 : processFile cfg fs 2 T3 f4 (some f3) 4 = (U4, some f4) :=
    processFile_fresh cfg fs 2 T3 f4 (some f3) 4 c4
      (T5, [{ r4 with resolved := true, target := f5 }], [f5], [f5])
      (by decide) hlT3f4 hs4 (by decide) hfold4
  have hfold3 : (extractReferences c3 f3 cfg).foldl
      (walkStep cfg fs (fun t' p' par' d' => processFile cfg fs (3 - 1) t' p' par' d') f3 3)
      (T3, [], [], []) =
      (U4, [{ r3 with resolved := true, target := f4 }], [f4], [f4]) := by
    rw [hex3]
    simp only [List.foldl_cons, List.foldl_nil]
    have hw := walkStep_file_child cfg fs
      (fun t' p' par' d' => processFile cfg fs (3 - 1) t' p' par' d') f3 3
      (T3, [], [], []) r3 f4 U4 f4 hr3 hres3 hst4 rfl hPF4
    rw [hw]
    simp
  let n3_1 : ConfigNode :=
    { path := f3, content := c3,
      references := [{ r3 with resolved := true, target := f4 }],
      children := [f4], parent := some f2, depth := 3 }
  let U3 : Tree := { U4 with nodes := updateA U4.nodes f3 n3_1 }
  have hPF3 : processFile cfg fs 3 T2 f3 (some f2) 3 = (U3, some f3) :=
    processFile_fresh cfg fs 3 T2 f3 (some f2) 3 c3
      (U4, [{ r3 with resolved := true, target := f4 }], [f4], [f4])
      (by decide) hlT2f3 hs3 (by decide) hfold3
  have hfold2 : (extractReferences c2 f2 cfg).foldl
      (walkStep cfg fs (fun t' p' par' d' => processFile cfg fs (4 - 1) t' p' par' d') f2 2)
      (T2, [], [], []) =
      (U3, [{ r2 with resolved := true, target := f3 }], [f3], [f3]) := by
    rw [hex2]
    simp only [List.foldl_cons, List.foldl_nil]
    have hw := walkStep_file_child cfg fs
      (fun t' p' par' d' => processFile cfg fs (4 - 1) t' p' par' d') f2 2
      (T2, [], [], []) r2 f3 U3 f3 hr2 hres2 hst3 rfl hPF3
    rw [hw]
    simp
  let n2_1 : ConfigNode :=
    { path := f2, content := c2,
      references := [{ r2 with resolved := true, target := f3 }],
      children := [f3], parent := some f1, depth := 2 }
  let U2 : Tree := { U3 with nodes := updateA U3.nodes f2 n2_1 }
  have hPF2 : processFile cfg fs 4 T1 f2 (some f1) 2 = (U2, some f2) :=
    processFile_fresh cfg fs 4 T1 f2 (some f1) 2 c2
      (U3, [{ r2 with resolved := true, target := f3 }], [f3], [f3])
      (by decide) hlT1f2 hs2 (by decide) hfold2
  have hfold1 : (extractReferences c1 f1 cfg).foldl
      (walkStep cfg fs (fun t' p' par' d' => processFile cfg fs (5 - 1) t' p' par' d') f1 1)
      (T1, [], [], []) =
      (U2, [{ r1 with resolved := true, target := f2 }], [f2], [f2]) := by
    rw [hex1]
    simp only [List.foldl_cons, List.foldl_nil]
    have hw := walkStep_file_child cfg fs
      (fun t' p' par' d' => processFile cfg fs (5 - 1) t' p' par' d') f1 1
      (T1, [], [], []) r1 f2 U2 f2 hr1 hres1 hst2 rfl hPF2
    rw [hw]
    simp
  let n1_1 : ConfigNode :=
    { path := f1, content := c1,
      references := [{ r1 with resolved := true, target := f2 }],
      children := [f2], parent := some root, depth := 1 }
  have hPF1 : processFile cfg fs 5 (initialTree root) f1 (some root) 1 =
      ({ U2 with nodes := updateA U2.nodes f1 n1_1 }, some f1) :=
    processFile_fresh cfg fs 5 (initialTree root) f1 (some root) 1 c1
      (U2, [{ r1 with resolved := true, target := f2 }], [f2], [f2])
      (by decide) rfl hs1 (by decide) hfold1
  have hentry : cfg.entrypoints.foldl (fun acc pat => acc ++ globEntry fs root pat) [] =
      [f1] := by
    rw [hent]
    simp only [List.foldl_cons, List.foldl_nil, List.nil_append]
    unfold globEntry
    dsimp only
    rw [hglob, hst1]
    simp
  refine ⟨{ { U2 with nodes := updateA U2.nodes f1 n1_1 } with
            root := { rootNode root with children := [] ++ [f1] } }, ?_, ?_, ?_, ?_⟩
  · unfold BuildTree
    rw [hentry]
    simp only [List.isEmpty_cons, List.foldl_cons, List.foldl_nil]
    rw [if_neg (by simp)]
    unfold entryStep
    rw [hPF1]
  · show (updateA U2.nodes f1 n1_1).map Prod.fst = [f1, f2, f3, f4, f5]
    show (updateA (updateA (updateA (updateA
        ((((((initialTree root).nodes ++ [(f1, n1_0)]) ++ [(f2, n2_0)]) ++ [(f3, n3_0)]) ++
          [(f4, n4_0)]) ++ [(f5, n5)])
        f4 n4_1) f3 n3_1) f2 n2_1) f1 n1_1).map Prod.fst = [f1, f2, f3, f4, f5]
    simp [initialTree, updateA, h12, h13, h14, h15, h21, h23, h24, h25,
      h31, h32, h34, h35, h41, h42, h43, h45, h51, h52, h53, h54]
  · refine ⟨n5, ?_, rfl, rfl, rfl⟩
    show lookupA (updateA (updateA (updateA (updateA
        ((((((initialTree root).nodes ++ [(f1, n1_0)]) ++ [(f2, n2_0)]) ++ [(f3, n3_0)]) ++
          [(f4, n4_0)]) ++ [(f5, n5)])
        f4 n4_1) f3 n3_1) f2 n2_1) f1 n1_1) f5 = some n5
    rw [lookupA_updateA_ne _ _ _ h51, lookupA_updateA_ne _ _ _ h52,
      lookupA_updateA_ne _ _ _ h53, lookupA_updateA_ne _ _ _ h54]
    simp [initialTree, lookupA, h51, h52, h53, h54]
  · show lookupA (updateA (updateA (updateA (updateA
        ((((((initialTree root).nodes ++ [(f1, n1_0)]) ++ [(f2, n2_0)]) ++ [(f3, n3_0)]) ++
          [(f4, n4_0)]) ++ [(f5, n5)])
        f4 n4_1) f3 n3_1) f2 n2_1) f1 n1_1) f6 = none
    rw [lookupA_updateA_ne _ _ _ h61, lookupA_updateA_ne _ _ _ h62,
      lookupA_updateA_ne _ _ _ h63, lookupA_updateA_ne _ _ _ h64]
    simp [initialTree, lookupA, h61, h62, h63, h64, h65]


/-- C5 witnessed on a concrete two-file cycle. -/
theorem buildTree_cycle_witness :
    ∃ t, BuildTree exCfg exFsCycle "/p" = .ok t ∧
      t.nodes.map Prod.fst = ["/p/CLAUDE.md", "/p/B.md"] :=
  buildTree_cycle exCfg exFsCycle "/p" "CLAUDE.md" "/p/CLAUDE.md" "/p/B.md"
    "see @/B.md" "see @/CLAUDE.md"
    { rtype := .file, value := "@/B.md",
      source := { file := "/p/CLAUDE.md", line := 1, column := 5 },
      priority := 0, context := "see @/B.md", resolved := false, target := "" }
    { rtype := .file, value := "@/CLAUDE.md",
      source := { file := "/p/B.md", line := 1, column := 5 },
      priority := 0, context := "see @/CLAUDE.md", resolved := false, target := "" }
    (by decide) rfl rfl rfl rfl rfl rfl rfl rfl rfl rfl

/-- C6 amended, witnessed on a concrete file with two identical references. -/
theorem processFile_dedup_amended_witness :
    ∃ t', processFile exCfg exFsDup 5 (initialTree "/p") "/p/CLAUDE.md" (some "/p") 1 =
        (t', some "/p/CLAUDE.md") ∧
      (∃ nd, lookupA t'.nodes "/p/CLAUDE.md" = some nd ∧ nd.children = ["/p/B.md"] ∧
        nd.references =
          [{ rtype := .file, value := "@/B.md",
             source := { file := "/p/CLAUDE.md", line := 1, column := 5 },
             priority := 0, context := "see @/B.md\nsee @/B.md", resolved := true,
             target := "/p/B.md" },
           { rtype := .file, value := "@/B.md",
             source := { file := "/p/CLAUDE.md", line := 2, column := 5 },
             priority := 0, context := "see @/B.md\nsee @/B.md", resolved := true,
             target := "/p/B.md" }]) ∧
      (∃ ndQ, lookupA t'.nodes "/p/B.md" = some ndQ ∧ ndQ.depth = 1 + 1) :=
  processFile_dedup_amended exCfg exFsDup 5 (initialTree "/p") "/p/CLAUDE.md" (some "/p") 1
    "see @/B.md\nsee @/B.md" "/p/B.md" "leaf"
    { rtype := .file, value := "@/B.md",
      source := { file := "/p/CLAUDE.md", line := 1, column := 5 },
      priority := 0, context := "see @/B.md\nsee @/B.md", resolved := false, target := "" }
    { rtype := .file, value := "@/B.md",
      source := { file := "/p/CLAUDE.md", line := 2, column := 5 },
      priority := 0, context := "see @/B.md\nsee @/B.md", resolved := false, target := "" }
    (by decide) (by decide) (by decide) rfl rfl rfl rfl rfl rfl rfl rfl rfl rfl

/-- C7 witnessed on a concrete six-file chain. -/
theorem buildTree_depth_bound_witness :
    ∃ t, BuildTree exCfg exFsChain "/p" = .ok t ∧
      t.nodes.map Prod.fst =
        ["/p/CLAUDE.md", "/p/f2.md", "/p/f3.md", "/p/f4.md", "/p/f5.md"] ∧
      (∃ nd, lookupA t.nodes "/p/f5.md" = some nd ∧ nd.depth = 5 ∧
        nd.references =
          [{ rtype := .file, value := "@/f6.md",
             source := { file := "/p/f5.md", line := 1, column := 5 },
             priority := 0, context := "see @/f6.md", resolved := false, target := "" }] ∧
        nd.children = []) ∧
      lookupA t.nodes "/p/f6.md" = none :=
  buildTree_depth_bound exCfg exFsChain "/p" "CLAUDE.md"
    "/p/CLAUDE.md" "/p/f2.md" "/p/f3.md" "/p/f4.md" "/p/f5.md" "/p/f6.md"
    "see @/f2.md" "see @/f3.md" "see @/f4.md" "see @/f5.md" "see @/f6.md" "leaf"
    { rtype := .file, value := "@/f2.md",
      source := { file := "/p/CLAUDE.md", line := 1, column := 5 },
      priority := 0, context := "see @/f2.md", resolved := false, target := "" }
    { rtype := .file, value := "@/f3.md",
      source := { file := "/p/f2.md", line := 1, column := 5 },
      priority := 0, context := "see @/f3.md", resolved := false, target := "" }
    { rtype := .file, value := "@/f4.md",
      source := { file := "/p/f3.md", line := 1, column := 5 },
      priority := 0, context := "see @/f4.md", resolved := false, target := "" }
    { rtype := .file, value := "@/f5.md",
      source := { file := "/p/f4.md", line := 1, column := 5 },
      priority := 0, context := "see @/f5.md", resolved := false, target := "" }
    { rtype := .file, value := "@/f6.md",
      source := { file := "/p/f5.md", line := 1, column := 5 },
      priority := 0, context := "see @/f6.md", resolved := false, target := "" }
    (by decide) rfl rfl
    rfl rfl rfl rfl rfl rfl
    rfl rfl rfl rfl rfl
    rfl rfl rfl rfl rfl
    rfl rfl rfl rfl rfl

end Cclint
